import Mathlib

/-!
Verification development for a Jack-to-VM compiler backend
(scoped symbol table `JackToVM/SymbolTable.py` and code-generating
recursive-descent engine `XMLtoVM/CompilationEngine.py`).

The Python source is shallowly embedded: tuples become structures,
dictionaries become insertion-ordered association lists (Python 3 dicts
preserve insertion order, and updating an existing key keeps its
position), the streaming VM writer becomes a list of emitted
instructions, the token stream becomes a list of `(type, value)` pairs
consumed left to right, and the engine's recursive-descent loops are
given explicit fuel (every loop consumes at least one token per
iteration, so any fuel larger than the token count is enough; running
out of fuel or out of tokens yields `none`, matching the source's
crash-on-malformed-input contract).
-/

namespace JackCompiler

/-- A virtual-machine instruction, as produced by the `VMWriter`
instruction sink (`write_push`, `write_pop`, `write_arithmetic`,
`write_label`, `write_goto`, `write_if`, `write_call`,
`write_function`, `write_return`). -/
inductive Instr where
  | push (segment : String) (index : Nat)
  | pop (segment : String) (index : Nat)
  | arith (op : String)
  | label (name : String)
  | goto (name : String)
  | ifGoto (name : String)
  | call (name : String) (nArgs : Nat)
  | func (name : String) (nLocals : Nat)
  | ret
  deriving DecidableEq, Repr

/-- A token as delivered by the tokenizer: a `(tokenType, tokenValue)`
pair, e.g. `("keyword", "while")` or `("integerConstant", "5")`. -/
structure Token where
  type : String
  value : String
  deriving DecidableEq, Repr

/-- `self.__input_tokenizer.advance()[1]`: consume the next token and
return its value. `none` on an exhausted stream (a crash in Python). -/
def advance : List Token → Option (String × List Token)
  | [] => none
  | t :: ts => some (t.value, ts)

/-- `next_token_type_in`: peek at the next token's type. Peeking an
exhausted stream is an error in Python; the engine never does so on
well-formed input — modelled as a non-match. -/
def nextTokenTypeIn (toks : List Token) (types : List String) : Bool :=
  match toks with
  | [] => false
  | t :: _ => types.contains t.type

/-- `next_token_value_in`: peek at the next token's value. -/
def nextTokenValueIn (toks : List Token) (values : List String) : Bool :=
  match toks with
  | [] => false
  | t :: _ => values.contains t.value

/-- One symbol-table row: the `(type, kind, index)` tuple stored for
a name in `SymbolTable.define`. -/
structure Entry where
  type : String
  kind : String
  index : Nat
  deriving DecidableEq, Repr

/-- Association-list lookup (Python `dict` membership / subscript). -/
def alookup {α : Type} : List (String × α) → String → Option α
  | [], _ => none
  | (k', v) :: rest, k => if k' = k then some v else alookup rest k

/-- Association-list update, `d[name] = value`: an existing key keeps
its position (Python 3 dict semantics), a new key is appended. -/
def aupsert {α : Type} : List (String × α) → String → α → List (String × α)
  | [], k, v => [(k, v)]
  | (k', v') :: rest, k, v =>
      if k' = k then (k, v) :: rest else (k', v') :: aupsert rest k v

/-- The two-scope symbol table of `SymbolTable.py`.  `cur` names the
currently selected table the way `set_cur_level_symbol_table` does: the
string `"class"` selects the class-level table, any other string is a
key into `subTables` (the dict-of-dicts `__subroutine_symbol_table`).
The Python field `__cur_symbol_table` is a reference to a dict; since
the engine always calls `set_cur_level_symbol_table` right after
`start_subroutine`, resolving the key at use time is equivalent. -/
structure SymbolTable where
  classTable : List (String × Entry)
  subTables : List (String × List (String × Entry))
  cur : String
  staticCounter : Nat
  fieldCounter : Nat
  argCounter : Nat
  varCounter : Nat
  ifCounter : Nat
  whileCounter : Nat
  deriving DecidableEq, Repr

namespace SymbolTable

/-- `SymbolTable.__init__`: empty tables, all counters zero, current
table is the class-level one. -/
def init : SymbolTable :=
  { classTable := [], subTables := [], cur := "class",
    staticCounter := 0, fieldCounter := 0, argCounter := 0,
    varCounter := 0, ifCounter := 0, whileCounter := 0 }

/-- `start_subroutine(name)`: installs a fresh empty scope under
`name` and zeroes the four per-subroutine counters. -/
def start_subroutine (st : SymbolTable) (name : String) : SymbolTable :=
  { st with subTables := aupsert st.subTables name [],
            argCounter := 0, varCounter := 0,
            ifCounter := 0, whileCounter := 0 }

/-- The dict `self.__cur_symbol_table` currently points at.  Reading a
subroutine key that was never started is a `KeyError` in Python (never
reached by the engine); modelled as the empty table. -/
def curTable (st : SymbolTable) : List (String × Entry) :=
  if st.cur = "class" then st.classTable
  else (alookup st.subTables st.cur).getD []

/-- Writing through `self.__cur_symbol_table` (an aliased dict in
Python): replace the currently selected table wholesale. -/
def setCurTableData (st : SymbolTable) (tbl : List (String × Entry)) :
    SymbolTable :=
  if st.cur = "class" then { st with classTable := tbl }
  else { st with subTables := aupsert st.subTables st.cur tbl }

/-- `define(name, type, kind)`: `"static"`/`"field"` rows go to the
class table with the static/field counter as index, `"arg"`/`"var"`
rows go to the current table with the arg/var counter; the used
counter is then incremented.  Any other kind does nothing. -/
def define (st : SymbolTable) (name type kind : String) : SymbolTable :=
  if kind = "static" then
    { st with classTable := aupsert st.classTable name ⟨type, kind, st.staticCounter⟩,
              staticCounter := st.staticCounter + 1 }
  else if kind = "field" then
    { st with classTable := aupsert st.classTable name ⟨type, kind, st.fieldCounter⟩,
              fieldCounter := st.fieldCounter + 1 }
  else if kind = "arg" then
    { st.setCurTableData (aupsert st.curTable name ⟨type, kind, st.argCounter⟩) with
        argCounter := st.argCounter + 1 }
  else if kind = "var" then
    { st.setCurTableData (aupsert st.curTable name ⟨type, kind, st.varCounter⟩) with
        varCounter := st.varCounter + 1 }
  else st

/-- `subroutine_level_var_count(kind)`: number of rows of `kind` in
the current table. -/
def subroutine_level_var_count (st : SymbolTable) (kind : String) : Nat :=
  (st.curTable.filter (fun p => p.2.kind = kind)).length

/-- `class_level_var_count(kind)`: number of rows of `kind` in the
class table. -/
def class_level_var_count (st : SymbolTable) (kind : String) : Nat :=
  (st.classTable.filter (fun p => p.2.kind = kind)).length

/-- `kind_of(name)`: current table first, then class table; Python's
implicit `None` when absent from both. -/
def kind_of (st : SymbolTable) (name : String) : Option String :=
  match alookup st.curTable name with
  | some e => some e.kind
  | none =>
    match alookup st.classTable name with
    | some e => some e.kind
    | none => none

/-- `type_of(name)`. -/
def type_of (st : SymbolTable) (name : String) : Option String :=
  match alookup st.curTable name with
  | some e => some e.type
  | none =>
    match alookup st.classTable name with
    | some e => some e.type
    | none => none

/-- `index_of(name)`. -/
def index_of (st : SymbolTable) (name : String) : Option Nat :=
  match alookup st.curTable name with
  | some e => some e.index
  | none =>
    match alookup st.classTable name with
    | some e => some e.index
    | none => none

/-- `increment_if_counter`. -/
def increment_if_counter (st : SymbolTable) : SymbolTable :=
  { st with ifCounter := st.ifCounter + 1 }

/-- `increment_while_counter`. -/
def increment_while_counter (st : SymbolTable) : SymbolTable :=
  { st with whileCounter := st.whileCounter + 1 }

/-- `set_cur_level_symbol_table(name)`: select the class table (for
`"class"`) or the subroutine table stored under `name`. -/
def set_cur (st : SymbolTable) (name : String) : SymbolTable :=
  { st with cur := name }

/-- `current_symbol_table_contains(name)`. -/
def current_symbol_table_contains (st : SymbolTable) (name : String) : Bool :=
  (alookup st.curTable name).isSome

/-- `class_level_symbol_table_contains(name)`. -/
def class_level_symbol_table_contains (st : SymbolTable) (name : String) : Bool :=
  (alookup st.classTable name).isSome

end SymbolTable

/-- Decimal digits of `n`, most significant first — the characters of
Python's `str(n)` / `"{}".format(n)`.  The first argument is fuel
(`n` itself always suffices, since `n / 10` drops below any positive
fuel at least as fast as the fuel does). -/
def natDigitsAux : Nat → Nat → List Char
  | 0, n => [Nat.digitChar (n % 10)]
  | f+1, n =>
      if n < 10 then [Nat.digitChar n]
      else natDigitsAux f (n / 10) ++ [Nat.digitChar (n % 10)]

/-- Python `str(n)` for a natural number, used by
`"WHILE_START{}".format(...)`-style label formatting. -/
def natStr (n : Nat) : String := ⟨natDigitsAux n n⟩

/-- Read a decimal digit string back as a number — Python `int(s)` on
the well-formed numeric tokens the engine receives. -/
def parseDecimal (l : List Char) : Nat :=
  l.foldl (fun a c => 10 * a + (c.toNat - 48)) 0

/-- `__UNARY_OP_DICT`. -/
def unaryOpDict (op : String) : Option String :=
  if op = "-" then some "neg"
  else if op = "~" then some "not"
  else if op = "^" then some "shiftleft"
  else if op = "#" then some "shiftright"
  else none

/-- The keys of `__UNARY_OP_DICT`. -/
def unaryOps : List String := ["-", "~", "^", "#"]

/-- `__CALL_BINARY_OP_DICT`. -/
def callBinaryOpDict (op : String) : Option String :=
  if op = "*" then some "Math.multiply"
  else if op = "/" then some "Math.divide"
  else none

/-- `__ARITHMETIC_BINARY_OP_DICT`. -/
def arithBinaryOpDict (op : String) : Option String :=
  if op = "+" then some "add"
  else if op = "-" then some "sub"
  else if op = "&" then some "and"
  else if op = "|" then some "or"
  else if op = "<" then some "lt"
  else if op = ">" then some "gt"
  else if op = "=" then some "eq"
  else none

/-- The union of both binary-operator dicts' keys, the guard of the
`compile_expression` loop. -/
def binaryOps : List String := ["*", "/", "+", "-", "&", "|", "<", ">", "="]

/-- `__KEYWORD_CONSTANT`. -/
def keywordConstants : List String := ["true", "false", "null", "this"]

/-- `__VAR_DICT1`: kinds living in the subroutine scope and their VM
segments. -/
def varDict1 (kind : String) : Option String :=
  if kind = "var" then some "local"
  else if kind = "arg" then some "argument"
  else none

/-- `__VAR_DICT2`: kinds living in the class scope and their VM
segments. -/
def varDict2 (kind : String) : Option String :=
  if kind = "field" then some "this"
  else if kind = "static" then some "static"
  else none

/-- The five statement keywords of `__statements_dict`. -/
def statementKeywords : List String := ["do", "let", "while", "return", "if"]

/-- The lookahead test shared by `__compile_expression_list` and
`__compile_return`: does the next token start an expression? -/
def exprStart (toks : List Token) : Bool :=
  nextTokenTypeIn toks ["integerConstant", "stringConstant", "identifier"] ||
  nextTokenValueIn toks ("(" :: (keywordConstants ++ unaryOps))

/-- `__write_pop_or_push(name, method)`: resolve `name` through the
symbol table and emit at most one push/pop; an unknown name or a kind
filtered out by the relevant dict emits nothing. -/
def write_pop_or_push (st : SymbolTable) (name : String)
    (mk : String → Nat → Instr) : List Instr :=
  let kind := st.kind_of name
  let idx := (st.index_of name).getD 0
  if st.current_symbol_table_contains name then
    match kind with
    | some k =>
      match varDict1 k with
      | some seg => [mk seg idx]
      | none => []
    | none => []
  else
    match kind with
    | some k =>
      match varDict2 k with
      | some seg => [mk seg idx]
      | none => []
    | none => []

/-- `__write_push(name)`. -/
def write_push (st : SymbolTable) (name : String) : List Instr :=
  write_pop_or_push st name Instr.push

/-- `__write_pop(name)`. -/
def write_pop (st : SymbolTable) (name : String) : List Instr :=
  write_pop_or_push st name Instr.pop

/-- `type_of(name)` as it appears inside Python string formatting:
`None` prints as `"None"`. -/
def typeOfStr (st : SymbolTable) (name : String) : String :=
  match st.type_of name with
  | some t => t
  | none => "None"

/-- `__write_integer_string_keyword_constant`: one token makes a
constant push (integer), a `String.new`/`appendChar` expansion
(string), or the keyword-constant code (`this`/`true`/`false`/`null`). -/
def write_integer_string_keyword_constant (toks : List Token) :
    Option (List Instr × List Token) :=
  if nextTokenTypeIn toks ["integerConstant"] then do
    let a ← advance toks
    pure ([Instr.push "constant" (parseDecimal a.1.data)], a.2)
  else if nextTokenTypeIn toks ["stringConstant"] then do
    let a ← advance toks
    pure ([Instr.push "constant" a.1.length, Instr.call "String.new" 1] ++
      a.1.data.flatMap (fun ch =>
        [Instr.push "constant" ch.toNat, Instr.call "String.appendChar" 2]),
      a.2)
  else if nextTokenValueIn toks keywordConstants then do
    let a ← advance toks
    if a.1 = "this" then pure ([Instr.push "pointer" 0], a.2)
    else if a.1 = "true" then
      pure ([Instr.push "constant" 0, Instr.arith "not"], a.2)
    else pure ([Instr.push "constant" 0], a.2)
  else pure ([], toks)

/-- `__write_precise_subroutine_name(name)`: consume `. subName`; a
receiver known to either scope contributes its value push, its
declared type as class prefix and one implicit argument, an unknown
receiver is a literal class name.  Returns (implicit-arg count,
receiver push code, full call name, rest). -/
def write_precise_subroutine_name (st : SymbolTable) (name : String)
    (toks : List Token) : Option (Nat × List Instr × String × List Token) := do
  let a1 ← advance toks
  let a2 ← advance a1.2
  if st.current_symbol_table_contains name ||
      st.class_level_symbol_table_contains name then
    pure (1, write_push st name, typeOfStr st name ++ "." ++ a2.1, a2.2)
  else
    pure (0, [], name ++ "." ++ a2.1, a2.2)

mutual

/-- `__compile_expression`: one term, then the binary-operator loop. -/
def compile_expression (cn : String) (st : SymbolTable) :
    Nat → List Token → Option (List Instr × List Token)
  | 0, _ => none
  | f+1, toks => do
      let r1 ← compile_term cn st f toks
      let r2 ← expr_loop cn st f r1.2
      pure (r1.1 ++ r2.1, r2.2)
termination_by structural f => f

/-- The `while self.__next_token_value_in(binary ops)` loop inside
`__compile_expression`: consume an operator, compile the next term,
then emit the operator's instruction (a `Math.multiply`/`Math.divide`
call for `*`/`/`, a single arithmetic instruction otherwise). -/
def expr_loop (cn : String) (st : SymbolTable) :
    Nat → List Token → Option (List Instr × List Token)
  | 0, _ => none
  | f+1, toks =>
      if nextTokenValueIn toks binaryOps then do
        let a ← advance toks
        let r1 ← compile_term cn st f a.2
        let opCode :=
          match callBinaryOpDict a.1 with
          | some nm => [Instr.call nm 2]
          | none =>
            match arithBinaryOpDict a.1 with
            | some ar => [Instr.arith ar]
            | none => []
        let r2 ← expr_loop cn st f r1.2
        pure (r1.1 ++ opCode ++ r2.1, r2.2)
      else pure ([], toks)
termination_by structural f => f

/-- `__compile_term`. -/
def compile_term (cn : String) (st : SymbolTable) :
    Nat → List Token → Option (List Instr × List Token)
  | 0, _ => none
  | f+1, toks =>
      if nextTokenTypeIn toks ["integerConstant", "stringConstant"] ||
          nextTokenValueIn toks keywordConstants then
        write_integer_string_keyword_constant toks
      else if nextTokenTypeIn toks ["identifier"] then
        write_identifier_term cn st f toks
      else if nextTokenValueIn toks unaryOps then do
        let a ← advance toks
        let r ← compile_term cn st f a.2
        pure (r.1 ++ [Instr.arith ((unaryOpDict a.1).getD "")], r.2)
      else if nextTokenValueIn toks ["("] then do
        let a ← advance toks
        let r ← compile_expression cn st f a.2
        let a2 ← advance r.2
        pure (r.1, a2.2)
      else pure ([], toks)
termination_by structural f => f

/-- `__write_identifier_term`: an identifier term is a call of the
current class (lookahead `(`), or is handled by
`__write_period_and_array_end`. -/
def write_identifier_term (cn : String) (st : SymbolTable) :
    Nat → List Token → Option (List Instr × List Token)
  | 0, _ => none
  | f+1, toks => do
      let a ← advance toks
      let rb ← write_left_square_bracket cn st f a.1 a.2
      if nextTokenValueIn rb.2.2 ["("] then do
        let a2 ← advance rb.2.2
        let re ← compile_expression_list cn st f a2.2
        let a3 ← advance re.2.2
        pure (rb.2.1 ++ [Instr.push "pointer" 0] ++ re.1 ++
          [Instr.call (cn ++ "." ++ a.1) (1 + re.2.1)], a3.2)
      else do
        let rp ← write_period_and_array_end cn st f rb.1 a.1 rb.2.2
        pure (rb.2.1 ++ rp.1, rp.2)
termination_by structural f => f

/-- `__write_period_and_array_end`: a qualified call (lookahead `.`),
an array-element load, or a plain variable push. -/
def write_period_and_array_end (cn : String) (st : SymbolTable) :
    Nat → Bool → String → List Token → Option (List Instr × List Token)
  | 0, _, _, _ => none
  | f+1, isArr, name, toks =>
      if nextTokenValueIn toks ["."] then do
        let rn ← write_precise_subroutine_name st name toks
        let a1 ← advance rn.2.2.2
        let re ← compile_expression_list cn st f a1.2
        let a2 ← advance re.2.2
        pure (rn.2.1 ++ re.1 ++ [Instr.call rn.2.2.1 (rn.1 + re.2.1)], a2.2)
      else
        if isArr then pure ([Instr.pop "pointer" 1, Instr.push "that" 0], toks)
        else pure (write_push st name, toks)
termination_by structural f => f

/-- `__write_left_square_bracket(name)`: on lookahead `[`, compile the
index expression and add the base address of `name`. -/
def write_left_square_bracket (cn : String) (st : SymbolTable) :
    Nat → String → List Token → Option (Bool × List Instr × List Token)
  | 0, _, _ => none
  | f+1, name, toks =>
      if nextTokenValueIn toks ["["] then do
        let a1 ← advance toks
        let r ← compile_expression cn st f a1.2
        let a2 ← advance r.2
        pure (true, r.1 ++ write_push st name ++ [Instr.arith "add"], a2.2)
      else pure (false, [], toks)
termination_by structural f => f

/-- `__compile_expression_list`: a possibly-empty comma-separated list
of expressions; returns the emitted code and the argument count. -/
def compile_expression_list (cn : String) (st : SymbolTable) :
    Nat → List Token → Option (List Instr × Nat × List Token)
  | 0, _ => none
  | f+1, toks => do
      let r1 ←
        (if exprStart toks then do
          let r ← compile_expression cn st f toks
          pure (r.1, 1, r.2)
        else pure (([] : List Instr), 0, toks))
      let r2 ← expr_list_loop cn st f r1.2.2
      pure (r1.1 ++ r2.1, r1.2.1 + r2.2.1, r2.2.2)
termination_by structural f => f

/-- The `while self.__next_token_value_in({','})` loop inside
`__compile_expression_list`. -/
def expr_list_loop (cn : String) (st : SymbolTable) :
    Nat → List Token → Option (List Instr × Nat × List Token)
  | 0, _ => none
  | f+1, toks =>
      if nextTokenValueIn toks [","] then do
        let a ← advance toks
        let r1 ← compile_expression cn st f a.2
        let r2 ← expr_list_loop cn st f r1.2
        pure (r1.1 ++ r2.1, r2.2.1 + 1, r2.2.2)
      else pure ([], 0, toks)
termination_by structural f => f

/-- `__compile_subroutine_call` (reached from `do` statements): an
unqualified call pushes the current receiver (`pointer 0`) and
prefixes the current class name; a qualified call defers to
`__write_precise_subroutine_name`. -/
def compile_subroutine_call (cn : String) (st : SymbolTable) :
    Nat → List Token → Option (List Instr × List Token)
  | 0, _ => none
  | f+1, toks => do
      let a ← advance toks
      let rn ←
        (if nextTokenValueIn a.2 ["."] then
          write_precise_subroutine_name st a.1 a.2
        else
          pure (1, [Instr.push "pointer" 0], cn ++ "." ++ a.1, a.2))
      let a1 ← advance rn.2.2.2
      let re ← compile_expression_list cn st f a1.2
      let a2 ← advance re.2.2
      pure (rn.2.1 ++ re.1 ++ [Instr.call rn.2.2.1 (rn.1 + re.2.1)], a2.2)

end

/-- `__compile_do`: `do <call>;` — the call's code followed by the
discard-pop of the return value. -/
def compile_do (cn : String) (f : Nat) (st : SymbolTable) (toks : List Token) :
    Option (List Instr × SymbolTable × List Token) := do
  let a1 ← advance toks
  let r ← compile_subroutine_call cn st f a1.2
  let a2 ← advance r.2
  pure (r.1 ++ [Instr.pop "temp" 0], st, a2.2)

/-- `__compile_let`: optional array target, `=`, right-hand side, then
either the four-instruction indirect store or a plain `__write_pop`. -/
def compile_let (cn : String) (f : Nat) (st : SymbolTable) (toks : List Token) :
    Option (List Instr × SymbolTable × List Token) := do
  let a1 ← advance toks
  let a2 ← advance a1.2
  let rb ← write_left_square_bracket cn st f a2.1 a2.2
  let a3 ← advance rb.2.2
  let re ← compile_expression cn st f a3.2
  let tail :=
    if rb.1 then
      [Instr.pop "temp" 0, Instr.pop "pointer" 1,
       Instr.push "temp" 0, Instr.pop "that" 0]
    else write_pop st a2.1
  let a4 ← advance re.2
  pure (rb.2.1 ++ re.1 ++ tail, st, a4.2)

/-- The `while` loop of `__compile_return` that compiles expressions
as long as the lookahead starts one, tracking whether any was seen. -/
def return_loop (cn : String) (st : SymbolTable) :
    Nat → List Token → Option (List Instr × Bool × List Token)
  | 0, _ => none
  | f+1, toks =>
      if exprStart toks then do
        let r1 ← compile_expression cn st f toks
        let r2 ← return_loop cn st f r1.2
        pure (r1.1 ++ r2.1, true, r2.2.2)
      else pure ([], false, toks)

/-- `__compile_return`: a bare `return;` synthesizes `push constant 0`
before the `return` instruction. -/
def compile_return (cn : String) (f : Nat) (st : SymbolTable)
    (toks : List Token) : Option (List Instr × SymbolTable × List Token) := do
  let a1 ← advance toks
  let r ← return_loop cn st f a1.2
  let a2 ← advance r.2.2
  pure (r.1 ++ (if r.2.1 then [] else [Instr.push "constant" 0]) ++ [Instr.ret],
    st, a2.2)

mutual

/-- `__compile_statements`: dispatch on the lookahead keyword while it
is one of the five statement keywords (`__statements_dict`). -/
def compile_statements (cn : String) :
    Nat → SymbolTable → List Token →
      Option (List Instr × SymbolTable × List Token)
  | 0, _, _ => none
  | f+1, st, toks =>
      if nextTokenValueIn toks statementKeywords then do
        let r1 ←
          (match toks with
          | [] => none
          | t :: _ =>
            if t.value = "do" then compile_do cn f st toks
            else if t.value = "let" then compile_let cn f st toks
            else if t.value = "while" then compile_while cn f st toks
            else if t.value = "return" then compile_return cn f st toks
            else if t.value = "if" then compile_if cn f st toks
            else none)
        let r2 ← compile_statements cn f r1.2.1 r1.2.2
        pure (r1.1 ++ r2.1, r2.2.1, r2.2.2)
      else pure ([], st, toks)
termination_by structural f => f

/-- `__compile_while`: mint one value of the while counter, place the
start label, compile and negate the condition, exit to the end label
when it is false, then body, back-jump and end label. -/
def compile_while (cn : String) :
    Nat → SymbolTable → List Token →
      Option (List Instr × SymbolTable × List Token)
  | 0, _, _ => none
  | f+1, st, toks => do
      let wc := st.whileCounter
      let st1 := st.increment_while_counter
      let startLabel := "WHILE_START" ++ natStr wc
      let endLabel := "WHILE_END" ++ natStr wc
      let a1 ← advance toks
      let a2 ← advance a1.2
      let re ← compile_expression cn st1 f a2.2
      let a3 ← advance re.2
      let a4 ← advance a3.2
      let rs ← compile_statements cn f st1 a4.2
      let a5 ← advance rs.2.2
      pure ([Instr.label startLabel] ++ re.1 ++
        [Instr.arith "not", Instr.ifGoto endLabel] ++ rs.1 ++
        [Instr.goto startLabel, Instr.label endLabel], rs.2.1, a5.2)
termination_by structural f => f

/-- `__compile_if`: compile the condition, mint one value of the if
counter, branch to the true label or jump to the false label, compile
the then-block, then `__write_if_else`. -/
def compile_if (cn : String) :
    Nat → SymbolTable → List Token →
      Option (List Instr × SymbolTable × List Token)
  | 0, _, _ => none
  | f+1, st, toks => do
      let a1 ← advance toks
      let a2 ← advance a1.2
      let re ← compile_expression cn st f a2.2
      let a3 ← advance re.2
      let ic := st.ifCounter
      let st1 := st.increment_if_counter
      let trueLabel := "IF_START" ++ natStr ic
      let falseLabel := "ELSE" ++ natStr ic
      let a4 ← advance a3.2
      let rs ← compile_statements cn f st1 a4.2
      let a5 ← advance rs.2.2
      let rf ← write_if_else cn f ic falseLabel rs.2.1 a5.2
      pure (re.1 ++ [Instr.ifGoto trueLabel, Instr.goto falseLabel,
        Instr.label trueLabel] ++ rs.1 ++ rf.1, rf.2.1, rf.2.2)
termination_by structural f => f

/-- `__write_if_else(if_counter, if_false_label)`: with an `else`
clause, jump over it to the end label, place the false label, compile
the else-block and place the end label; without one, just place the
false label. -/
def write_if_else (cn : String) :
    Nat → Nat → String → SymbolTable → List Token →
      Option (List Instr × SymbolTable × List Token)
  | 0, _, _, _, _ => none
  | f+1, ic, falseLabel, st, toks =>
      let endLabel := "IF_END" ++ natStr ic
      if nextTokenValueIn toks ["else"] then do
        let a1 ← advance toks
        let a2 ← advance a1.2
        let rs ← compile_statements cn f st a2.2
        let a3 ← advance rs.2.2
        pure ([Instr.goto endLabel, Instr.label falseLabel] ++ rs.1 ++
          [Instr.label endLabel], rs.2.1, a3.2)
      else pure ([Instr.label falseLabel], st, toks)
termination_by structural f => f

end

/-- The `while self.__next_token_value_in({','})` loop of
`__compile_var_dec`: further names declared with the same type and
kind. -/
def var_names_loop (ty kind : String) :
    Nat → SymbolTable → List Token → Option (SymbolTable × List Token)
  | 0, _, _ => none
  | f+1, st, toks =>
      if nextTokenValueIn toks [","] then do
        let a1 ← advance toks
        let a2 ← advance a1.2
        var_names_loop ty kind f (st.define a2.1 ty kind) a2.2
      else pure (st, toks)

/-- `__compile_var_dec`: `var <type> <name> (, <name>)* ;`, each name
defined in the symbol table. -/
def compile_var_dec (f : Nat) (st : SymbolTable) (toks : List Token) :
    Option (SymbolTable × List Token) := do
  let a1 ← advance toks
  let a2 ← advance a1.2
  let a3 ← advance a2.2
  let r ← var_names_loop a2.1 a1.1 f (st.define a3.1 a2.1 a1.1) a3.2
  let a4 ← advance r.2
  pure (r.1, a4.2)

/-- The `while self.__next_token_value_in({"var"})` loop of
`__compile_subroutine_body`. -/
def var_decs_loop : Nat → SymbolTable → List Token →
    Option (SymbolTable × List Token)
  | 0, _, _ => none
  | f+1, st, toks =>
      if nextTokenValueIn toks ["var"] then do
        let r ← compile_var_dec f st toks
        var_decs_loop f r.1 r.2
      else pure (st, toks)

/-- The `while not self.__next_token_value_in({')'})` loop of
`__compile_parameter_list`: `<type> <name>` pairs, commas skipped. -/
def param_loop : Nat → SymbolTable → List Token →
    Option (SymbolTable × List Token)
  | 0, _, _ => none
  | f+1, st, toks =>
      if nextTokenValueIn toks [")"] then pure (st, toks)
      else do
        let a1 ← advance toks
        let a2 ← advance a1.2
        let st1 := st.define a2.1 a1.1 "arg"
        if nextTokenValueIn a2.2 [","] then do
          let a3 ← advance a2.2
          param_loop f st1 a3.2
        else param_loop f st1 a2.2

/-- `__compile_parameter_list(function_type)`: an instance method
first defines the implicit receiver `("this", "self", "arg")`, then
the declared parameters are parsed. -/
def compile_parameter_list (functionType : String) (f : Nat)
    (st : SymbolTable) (toks : List Token) :
    Option (SymbolTable × List Token) :=
  let st0 := if functionType = "method" then st.define "this" "self" "arg" else st
  param_loop f st0 toks

/-- `__write_pointer_update(function_type)`: the constructor prologue
allocates `field`-count words and binds the result as the receiver;
the method prologue binds argument 0; a plain function emits nothing. -/
def write_pointer_update (functionType : String) (st : SymbolTable) :
    List Instr :=
  if functionType = "constructor" then
    [Instr.push "constant" (st.class_level_var_count "field"),
     Instr.call "Memory.alloc" 1, Instr.pop "pointer" 0]
  else if functionType = "method" then
    [Instr.push "argument" 0, Instr.pop "pointer" 0]
  else []

/-- `__compile_subroutine_body(function_type, cur_name)`: `{`, local
variable declarations, the `function` frame declaration sized to the
`var` count, the per-category prologue, the statements, `}`, and the
switch back to the class scope. -/
def compile_subroutine_body (cn functionType curName : String) (f : Nat)
    (st : SymbolTable) (toks : List Token) :
    Option (List Instr × SymbolTable × List Token) := do
  let a1 ← advance toks
  let rv ← var_decs_loop f st a1.2
  let nLocals := rv.1.subroutine_level_var_count "var"
  let rs ← compile_statements cn f rv.1 rv.2
  let a2 ← advance rs.2.2
  pure ([Instr.func curName nLocals] ++ write_pointer_update functionType rv.1 ++
    rs.1, rs.2.1.set_cur "class", a2.2)

/-! ### Association-list lemmas -/

theorem alookup_aupsert_self {α : Type} (l : List (String × α)) (k : String)
    (v : α) : alookup (aupsert l k v) k = some v := by
  induction l with
  | nil => simp [aupsert, alookup]
  | cons p rest ih =>
    by_cases h : p.1 = k
    · simp [aupsert, alookup, h]
    · simp [aupsert, alookup, h, ih]

theorem alookup_aupsert_ne {α : Type} (l : List (String × α)) (k k' : String)
    (v : α) (hne : k' ≠ k) : alookup (aupsert l k v) k' = alookup l k' := by
  induction l with
  | nil =>
    simp only [aupsert, alookup]
    rw [if_neg (fun h => hne h.symm)]
  | cons p rest ih =>
    by_cases h : p.1 = k
    · subst h
      simp only [aupsert, if_pos rfl, alookup]
      rw [if_neg (fun h => hne h.symm), if_neg (fun h => hne h.symm)]
    · simp only [aupsert, if_neg h, alookup]
      by_cases h2 : p.1 = k'
      · simp [h2]
      · simp [h2, ih]

/-! ### Preservation lemmas for `define` and the declaration loops -/

theorem define_var_preserves (st : SymbolTable) (n t : String)
    (hcur : st.cur ≠ "class") :
    (st.define n t "var").classTable = st.classTable ∧
    (st.define n t "var").cur = st.cur := by
  simp [SymbolTable.define, SymbolTable.setCurTableData, hcur]

theorem var_names_preserve : ∀ (f : Nat) (ty : String) (st : SymbolTable)
    (toks : List Token) (st' : SymbolTable) (toks' : List Token),
    st.cur ≠ "class" →
    var_names_loop ty "var" f st toks = some (st', toks') →
    st'.classTable = st.classTable ∧ st'.cur = st.cur := by
  intro f
  induction f with
  | zero => intro ty st toks st' toks' hcur h; simp [var_names_loop] at h
  | succ f ih =>
    intro ty st toks st' toks' hcur h
    rw [var_names_loop] at h
    by_cases hc : nextTokenValueIn toks [","]
    · rw [if_pos hc] at h
      simp only [Option.bind_eq_bind, Option.bind_eq_some] at h
      obtain ⟨a1, h1, a2, h2, h⟩ := h
      have hd := define_var_preserves st a2.1 ty hcur
      have hrec := ih ty (st.define a2.1 ty "var") a2.2 st' toks'
        (by rw [hd.2]; exact hcur) h
      rw [hrec.1, hrec.2, hd.1, hd.2]
      exact ⟨rfl, rfl⟩
    · rw [if_neg hc] at h
      simp only [Option.pure_def, Option.some_inj] at h
      cases h
      exact ⟨rfl, rfl⟩

theorem compile_var_dec_preserves (f : Nat) (st : SymbolTable)
    (toks : List Token) (r : SymbolTable × List Token)
    (hcur : st.cur ≠ "class")
    (hv : nextTokenValueIn toks ["var"] = true)
    (h : compile_var_dec f st toks = some r) :
    r.1.classTable = st.classTable ∧ r.1.cur = st.cur := by
  obtain ⟨t0, ts, heq, hval⟩ : ∃ t0 ts, toks = t0 :: ts ∧ t0.value = "var" := by
    match toks with
    | [] => simp [nextTokenValueIn] at hv
    | t0 :: ts =>
      refine ⟨t0, ts, rfl, ?_⟩
      simpa [nextTokenValueIn, List.contains] using hv
  subst heq
  rw [compile_var_dec] at h
  simp only [advance, Option.bind_eq_bind, Option.some_bind] at h
  simp only [Option.bind_eq_some] at h
  obtain ⟨a2, h2, a3, h3, rv, hrv, a4, h4, h⟩ := h
  rw [hval] at hrv
  have hd := define_var_preserves st a3.1 a2.1 hcur
  have hn := var_names_preserve f a2.1 (st.define a3.1 a2.1 "var") a3.2
    rv.1 rv.2 (by rw [hd.2]; exact hcur) (by rw [← hrv])
  simp only [Option.pure_def, Option.some_inj] at h
  cases h
  rw [hn.1, hn.2, hd.1, hd.2]
  exact ⟨rfl, rfl⟩

theorem var_decs_preserve : ∀ (f : Nat) (st : SymbolTable)
    (toks : List Token) (st' : SymbolTable) (toks' : List Token),
    st.cur ≠ "class" →
    var_decs_loop f st toks = some (st', toks') →
    st'.classTable = st.classTable ∧ st'.cur = st.cur := by
  intro f
  induction f with
  | zero => intro st toks st' toks' hcur h; simp [var_decs_loop] at h
  | succ f ih =>
    intro st toks st' toks' hcur h
    rw [var_decs_loop] at h
    by_cases hc : nextTokenValueIn toks ["var"]
    · rw [if_pos hc] at h
      simp only [Option.bind_eq_bind, Option.bind_eq_some] at h
      obtain ⟨r, hr, h⟩ := h
      have hd := compile_var_dec_preserves f st toks r hcur hc hr
      have hrec := ih r.1 r.2 st' toks' (by rw [hd.2]; exact hcur) h
      rw [hrec.1, hrec.2, hd.1, hd.2]
      exact ⟨rfl, rfl⟩
    · rw [if_neg hc] at h
      simp only [Option.pure_def, Option.some_inj] at h
      cases h
      exact ⟨rfl, rfl⟩

/-! ### Parameter lists: token encoding and `define` bookkeeping -/

/-- Token encoding of a declared parameter list
`t1 n1, t2 n2, ..., tk nk` (the commas separate the pairs; the closing
`)` is appended by the caller). -/
def paramsToks : List (String × String) → List Token
  | [] => []
  | p :: rest =>
    Token.mk "keyword" p.1 :: Token.mk "identifier" p.2 ::
      (match rest with
       | [] => []
       | _ :: _ => Token.mk "symbol" "," :: paramsToks rest)

/-- The engine's effect on the symbol table of parsing the parameters
`ps`: one `define(name, type, "arg")` per pair, in order. -/
def defineArgs (st : SymbolTable) (ps : List (String × String)) : SymbolTable :=
  ps.foldl (fun s p => s.define p.2 p.1 "arg") st

theorem define_arg_shape (st : SymbolTable) (n t : String)
    (hcur : st.cur ≠ "class") :
    (st.define n t "arg").curTable =
      aupsert st.curTable n ⟨t, "arg", st.argCounter⟩ ∧
    (st.define n t "arg").cur = st.cur ∧
    (st.define n t "arg").argCounter = st.argCounter + 1 := by
  simp [SymbolTable.define, SymbolTable.setCurTableData, SymbolTable.curTable,
    hcur, alookup_aupsert_self]

theorem defineArgs_counters : ∀ (ps : List (String × String))
    (st : SymbolTable), st.cur ≠ "class" →
    (defineArgs st ps).cur = st.cur ∧
    (defineArgs st ps).argCounter = st.argCounter + ps.length := by
  intro ps
  induction ps with
  | nil => intro st hcur; exact ⟨rfl, rfl⟩
  | cons p ps ih =>
    intro st hcur
    have hd := define_arg_shape st p.2 p.1 hcur
    have := ih (st.define p.2 p.1 "arg") (by rw [hd.2.1]; exact hcur)
    rw [show defineArgs st (p :: ps) =
      defineArgs (st.define p.2 p.1 "arg") ps from rfl]
    refine ⟨by rw [this.1, hd.2.1], ?_⟩
    rw [this.2, hd.2.2]
    simp [List.length]
    omega

theorem defineArgs_lookup_other : ∀ (ps : List (String × String))
    (st : SymbolTable) (x : String), st.cur ≠ "class" →
    x ∉ ps.map Prod.snd →
    alookup (defineArgs st ps).curTable x = alookup st.curTable x := by
  intro ps
  induction ps with
  | nil => intro st x hcur hx; rfl
  | cons p ps ih =>
    intro st x hcur hx
    simp only [List.map, List.mem_cons, not_or] at hx
    have hd := define_arg_shape st p.2 p.1 hcur
    have := ih (st.define p.2 p.1 "arg") x (by rw [hd.2.1]; exact hcur) hx.2
    rw [show defineArgs st (p :: ps) = defineArgs (st.define p.2 p.1 "arg") ps
      from rfl, this, hd.1, alookup_aupsert_ne _ _ _ _ hx.1]

theorem defineArgs_lookup_nth : ∀ (ps : List (String × String))
    (st : SymbolTable) (i : Nat) (hi : i < ps.length),
    st.cur ≠ "class" → (ps.map Prod.snd).Nodup →
    alookup (defineArgs st ps).curTable (ps.get ⟨i, hi⟩).2 =
      some ⟨(ps.get ⟨i, hi⟩).1, "arg", st.argCounter + i⟩ := by
  intro ps
  induction ps with
  | nil => intro st i hi; exact absurd hi (by simp)
  | cons p ps ih =>
    intro st i hi hcur hnd
    simp only [List.map, List.nodup_cons] at hnd
    have hd := define_arg_shape st p.2 p.1 hcur
    match i with
    | 0 =>
      have hoth := defineArgs_lookup_other ps (st.define p.2 p.1 "arg") p.2
        (by rw [hd.2.1]; exact hcur) hnd.1
      show alookup (defineArgs (st.define p.2 p.1 "arg") ps).curTable p.2 = _
      rw [hoth, hd.1, alookup_aupsert_self]
      simp
    | Nat.succ j =>
      have hj : j < ps.length := by
        simp only [List.length] at hi; omega
      have := ih (st.define p.2 p.1 "arg") j hj
        (by rw [hd.2.1]; exact hcur) hnd.2
      rw [show defineArgs st (p :: ps) =
        defineArgs (st.define p.2 p.1 "arg") ps from rfl]
      show alookup _ (ps.get ⟨j, hj⟩).2 = _
      rw [this, hd.2.2]
      congr 2
      omega

theorem index_kind_of_cur (st : SymbolTable) (x : String) (e : Entry)
    (h : alookup st.curTable x = some e) :
    st.index_of x = some e.index ∧ st.kind_of x = some e.kind := by
  unfold SymbolTable.index_of SymbolTable.kind_of
  rw [h]
  exact ⟨rfl, rfl⟩

theorem param_loop_run : ∀ (ps : List (String × String)) (f : Nat)
    (st : SymbolTable) (rest : List Token),
    (∀ p ∈ ps, p.1 ≠ ")") →
    param_loop (f + ps.length + 1) st
      (paramsToks ps ++ Token.mk "symbol" ")" :: rest) =
      some (defineArgs st ps, Token.mk "symbol" ")" :: rest) := by
  intro ps
  induction ps with
  | nil =>
    intro f st rest _
    simp [param_loop, paramsToks, nextTokenValueIn, defineArgs]
  | cons p ps ih =>
    intro f st rest h
    have hfuel : f + (p :: ps).length + 1 = (f + ps.length + 1) + 1 := by
      simp [List.length]; omega
    rw [hfuel, param_loop]
    have hp1 : p.1 ≠ ")" := h p (by simp)
    have hguard : nextTokenValueIn
        (paramsToks (p :: ps) ++ Token.mk "symbol" ")" :: rest) [")"] = false := by
      simp [paramsToks, nextTokenValueIn, hp1]
    rw [if_neg (by rw [hguard]; exact Bool.false_ne_true)]
    simp only [paramsToks, List.cons_append, advance, Option.bind_eq_bind,
      Option.some_bind]
    match hps : ps with
    | [] =>
      have : nextTokenValueIn
          (([] : List Token) ++ Token.mk "symbol" ")" :: rest) [","] = false := by
        simp [nextTokenValueIn]
      simp only [List.nil_append] at this ⊢
      rw [if_neg (by rw [this]; exact Bool.false_ne_true)]
      exact ih f (st.define p.2 p.1 "arg") rest (by intro q hq; cases hq)
    | q :: qs =>
      have hcm : nextTokenValueIn
          ((Token.mk "symbol" "," :: paramsToks (q :: qs)) ++
            Token.mk "symbol" ")" :: rest) [","] = true := by
        simp [nextTokenValueIn]
      simp only [List.cons_append]
      rw [if_pos (by simpa using hcm)]
      simp only [advance, Option.bind_eq_bind, Option.some_bind]
      exact ih f (st.define p.2 p.1 "arg") rest
        (by intro r hr; exact h r (by simp [hps, hr]))

/-! ### C3 — instance methods: implicit receiver parameter and prologue -/

/-- C3: (first part) compiling a method's parameter list first defines
the implicit receiver `this` with kind `arg` and index 0 and then the
declared parameters at indices 1, 2, ... in declaration order;
(second part) a method body's prologue, immediately after the
`function` instruction and before any statement code, is
`push argument 0 / pop pointer 0`. -/
theorem c3_method_implicit_receiver :
    (∀ (ps : List (String × String)) (f : Nat) (st : SymbolTable)
      (rest : List Token),
      st.cur ≠ "class" → st.argCounter = 0 →
      (∀ p ∈ ps, p.1 ≠ ")") →
      ("this" :: ps.map Prod.snd).Nodup →
      compile_parameter_list "method" (f + ps.length + 1) st
        (paramsToks ps ++ Token.mk "symbol" ")" :: rest) =
        some (defineArgs (st.define "this" "self" "arg") ps,
          Token.mk "symbol" ")" :: rest) ∧
      (defineArgs (st.define "this" "self" "arg") ps).index_of "this" =
        some 0 ∧
      (defineArgs (st.define "this" "self" "arg") ps).kind_of "this" =
        some "arg" ∧
      ∀ (i : Nat) (hi : i < ps.length),
        (defineArgs (st.define "this" "self" "arg") ps).index_of
          (ps.get ⟨i, hi⟩).2 = some (i + 1) ∧
        (defineArgs (st.define "this" "self" "arg") ps).kind_of
          (ps.get ⟨i, hi⟩).2 = some "arg") ∧
    (∀ (cn nm : String) (f : Nat) (st : SymbolTable) (toks : List Token)
      (out : List Instr) (st' : SymbolTable) (toks' : List Token),
      compile_subroutine_body cn "method" nm f st toks =
        some (out, st', toks') →
      ∃ nLocals stmtCode, out =
        Instr.func nm nLocals :: Instr.push "argument" 0 ::
        Instr.pop "pointer" 0 :: stmtCode) := by
  constructor
  · intro ps f st rest hcur hc0 hty hnd
    simp only [List.nodup_cons] at hnd
    have hthis := define_arg_shape st "this" "self" hcur
    have hcur1 : (st.define "this" "self" "arg").cur ≠ "class" := by
      rw [hthis.2.1]; exact hcur
    refine ⟨?_, ?_, ?_, ?_⟩
    · rw [compile_parameter_list, if_pos rfl]
      exact param_loop_run ps f (st.define "this" "self" "arg") rest hty
    · have hl := defineArgs_lookup_other ps (st.define "this" "self" "arg")
        "this" hcur1 hnd.1
      rw [hthis.1, alookup_aupsert_self] at hl
      exact (index_kind_of_cur _ _ _ hl).1.trans (by rw [hc0])
    · have hl := defineArgs_lookup_other ps (st.define "this" "self" "arg")
        "this" hcur1 hnd.1
      rw [hthis.1, alookup_aupsert_self] at hl
      exact (index_kind_of_cur _ _ _ hl).2
    · intro i hi
      have hl := defineArgs_lookup_nth ps (st.define "this" "self" "arg")
        i hi hcur1 hnd.2
      rw [hthis.2.2, hc0] at hl
      have := index_kind_of_cur _ _ _ hl
      refine ⟨this.1.trans ?_, this.2⟩
      simp [Nat.add_comm]
  · intro cn nm f st toks out st' toks' h
    rw [compile_subroutine_body] at h
    simp only [Option.bind_eq_bind, Option.bind_eq_some] at h
    obtain ⟨a1, h1, rv, hv, rs, hs, a2, h2, h⟩ := h
    simp only [Option.pure_def, Option.some_inj, Prod.mk.injEq] at h
    refine ⟨rv.1.subroutine_level_var_count "var", rs.1, ?_⟩
    rw [← h.1]
    simp [write_pointer_update]

/-- Witness for C3: one declared parameter `int x`; `this` gets index
0 and `x` gets index 1, and an empty method body gets the
`push argument 0 / pop pointer 0` prologue. -/
theorem c3_witness :
    compile_parameter_list "method" 2
      ((SymbolTable.init.start_subroutine "C.m").set_cur "C.m")
      [Token.mk "keyword" "int", Token.mk "identifier" "x",
        Token.mk "symbol" ")"] =
      some (defineArgs
        (((SymbolTable.init.start_subroutine "C.m").set_cur "C.m").define
          "this" "self" "arg") [("int", "x")], [Token.mk "symbol" ")"]) ∧
    (defineArgs
      (((SymbolTable.init.start_subroutine "C.m").set_cur "C.m").define
        "this" "self" "arg") [("int", "x")]).index_of "this" = some 0 ∧
    (defineArgs
      (((SymbolTable.init.start_subroutine "C.m").set_cur "C.m").define
        "this" "self" "arg") [("int", "x")]).index_of "x" = some 1 ∧
    ∃ nLocals stmtCode,
      ([Instr.func "C.m" 0, Instr.push "argument" 0,
        Instr.pop "pointer" 0] : List Instr) =
      Instr.func "C.m" nLocals :: Instr.push "argument" 0 ::
        Instr.pop "pointer" 0 :: stmtCode := by
  have ha := c3_method_implicit_receiver.1 [("int", "x")] 0
    ((SymbolTable.init.start_subroutine "C.m").set_cur "C.m") []
    (by decide) (by decide) (by decide) (by decide)
  have hb := c3_method_implicit_receiver.2 "C" "C.m" 5
    ((SymbolTable.init.start_subroutine "C.m").set_cur "C.m")
    [Token.mk "symbol" "\x7b", Token.mk "symbol" "\x7d"]
    [Instr.func "C.m" 0, Instr.push "argument" 0, Instr.pop "pointer" 0]
    ((((SymbolTable.init.start_subroutine "C.m").set_cur "C.m")).set_cur
      "class") [] (by decide)
  exact ⟨ha.1, ha.2.1, (ha.2.2.2 0 (by decide)).1, hb⟩

/-! ### C10 — unresolvable names: `None` lookups and silent emission -/

/-- C10: a name absent from both scopes makes `kind_of`, `type_of`
and `index_of` return `None` (no exception), a bare variable read of
it compiles to no instructions at all, and a non-array `let`
assignment to it emits only the right-hand side's code — no pop is
generated and compilation continues. -/
theorem c10_unknown_name_silent :
    (∀ (st : SymbolTable) (x : String),
      st.current_symbol_table_contains x = false →
      st.class_level_symbol_table_contains x = false →
      st.kind_of x = none ∧ st.type_of x = none ∧ st.index_of x = none) ∧
    (∀ (cn x : String) (st : SymbolTable) (f : Nat) (rest : List Token),
      st.current_symbol_table_contains x = false →
      st.class_level_symbol_table_contains x = false →
      nextTokenValueIn (Token.mk "identifier" x :: rest) keywordConstants =
        false →
      nextTokenValueIn rest ["["] = false →
      nextTokenValueIn rest ["("] = false →
      nextTokenValueIn rest ["."] = false →
      compile_term cn st (f + 3) (Token.mk "identifier" x :: rest) =
        some ([], rest)) ∧
    (∀ (cn x : String) (st : SymbolTable) (f : Nat) (eToks : List Token)
      (eCode : List Instr) (rest : List Token),
      st.current_symbol_table_contains x = false →
      st.class_level_symbol_table_contains x = false →
      compile_expression cn st (f + 1) eToks =
        some (eCode, Token.mk "symbol" ";" :: rest) →
      compile_let cn (f + 1) st
        (Token.mk "keyword" "let" :: Token.mk "identifier" x ::
          Token.mk "symbol" "=" :: eToks) = some (eCode, st, rest)) := by
  have hnone : ∀ (st : SymbolTable) (x : String),
      st.current_symbol_table_contains x = false →
      st.class_level_symbol_table_contains x = false →
      alookup st.curTable x = none ∧ alookup st.classTable x = none := by
    intro st x h1 h2
    unfold SymbolTable.current_symbol_table_contains at h1
    unfold SymbolTable.class_level_symbol_table_contains at h2
    exact ⟨Option.not_isSome_iff_eq_none.mp (by rw [h1]; simp),
      Option.not_isSome_iff_eq_none.mp (by rw [h2]; simp)⟩
  have hwp : ∀ (st : SymbolTable) (x : String)
      (mk : String → Nat → Instr),
      st.current_symbol_table_contains x = false →
      st.class_level_symbol_table_contains x = false →
      write_pop_or_push st x mk = [] := by
    intro st x mk h1 h2
    have hn := hnone st x h1 h2
    unfold write_pop_or_push
    rw [if_neg (by rw [h1]; exact Bool.false_ne_true)]
    unfold SymbolTable.kind_of
    rw [hn.1, hn.2]
  refine ⟨?_, ?_, ?_⟩
  · intro st x h1 h2
    have hn := hnone st x h1 h2
    unfold SymbolTable.kind_of SymbolTable.type_of SymbolTable.index_of
    rw [hn.1, hn.2]
    exact ⟨rfl, rfl, rfl⟩
  · intro cn x st f rest h1 h2 hkw hb hp hd
    have h3 : f + 3 = (f + 2) + 1 := rfl
    rw [h3, compile_term]
    rw [if_neg (by
      simp only [nextTokenTypeIn, nextTokenValueIn] at hkw ⊢
      rw [hkw]
      simp)]
    rw [if_pos (by simp [nextTokenTypeIn])]
    rw [show f + 2 = (f + 1) + 1 from rfl, write_identifier_term]
    simp only [advance, Option.bind_eq_bind, Option.some_bind]
    rw [show f + 1 = f + 1 from rfl, write_left_square_bracket]
    rw [if_neg (by rw [hb]; exact Bool.false_ne_true)]
    simp only [Option.pure_def, Option.some_bind]
    rw [if_neg (by rw [hp]; exact Bool.false_ne_true)]
    rw [write_period_and_array_end]
    rw [if_neg (by rw [hd]; exact Bool.false_ne_true)]
    simp only [if_neg Bool.false_ne_true, Bool.false_eq_true, if_false]
    rw [write_push, hwp st x Instr.push h1 h2]
    simp
  · intro cn x st f eToks eCode rest h1 h2 hexpr
    rw [compile_let]
    simp only [advance, Option.bind_eq_bind, Option.some_bind]
    rw [write_left_square_bracket]
    rw [if_neg (by simp [nextTokenValueIn])]
    simp only [Option.pure_def, Option.some_bind]
    rw [hexpr]
    simp only [Option.some_bind, advance]
    rw [write_pop, hwp st x Instr.pop h1 h2]
    simp

/-- Witness for C10: the name `qq` is unknown to an empty table; the
lookups are `None`, a bare read of `qq` emits nothing, and
`let qq = 5 ;` emits only `push constant 5`. -/
theorem c10_witness :
    (SymbolTable.init.kind_of "qq" = none ∧
      SymbolTable.init.type_of "qq" = none ∧
      SymbolTable.init.index_of "qq" = none) ∧
    compile_term "C" SymbolTable.init 3 [Token.mk "identifier" "qq"] =
      some ([], []) ∧
    compile_let "C" 3 SymbolTable.init
      (Token.mk "keyword" "let" :: Token.mk "identifier" "qq" ::
        Token.mk "symbol" "=" ::
        [Token.mk "integerConstant" "5", Token.mk "symbol" ";"]) =
      some ([Instr.push "constant" 5], SymbolTable.init, []) :=
  ⟨c10_unknown_name_silent.1 SymbolTable.init "qq" (by decide) (by decide),
   c10_unknown_name_silent.2.1 "C" "qq" SymbolTable.init 0 []
     (by decide) (by decide) (by decide) (by decide) (by decide) (by decide),
   c10_unknown_name_silent.2.2 "C" "qq" SymbolTable.init 2
     [Token.mk "integerConstant" "5", Token.mk "symbol" ";"]
     [Instr.push "constant" 5] [] (by decide) (by decide) (by decide)⟩

/-! ### C1 — the three subroutine-call shapes -/

/-- C1: with the argument list compiling to `argCode` (`k` arguments),
(i) an unqualified call `name(...)` pushes `pointer 0`, then the
arguments, then `call <cn>.name (k+1)`; (ii) a qualified call
`x.sub(...)` with `x` known to either scope pushes `x`'s resolved
segment/index, then the arguments, then `call <typeOf x>.sub (k+1)`;
(iii) a qualified call `C.sub(...)` with `C` unknown pushes no
receiver and emits `call C.sub k`.  Each shape is proved for both the
`do`-statement path (`__compile_subroutine_call`) and the term path
(`__write_identifier_term`). -/
theorem c1_call_disambiguation (cn : String) (st : SymbolTable)
    (f k : Nat) (aToks : List Token) (argCode : List Instr)
    (rest : List Token)
    (hArgs : ∀ g, f ≤ g → compile_expression_list cn st g aToks =
      some (argCode, k, Token.mk "symbol" ")" :: rest)) :
    (∀ name : String,
      compile_subroutine_call cn st (f + 3)
        (Token.mk "identifier" name :: Token.mk "symbol" "(" :: aToks) =
        some (Instr.push "pointer" 0 :: argCode ++
          [Instr.call (cn ++ "." ++ name) (1 + k)], rest) ∧
      write_identifier_term cn st (f + 3)
        (Token.mk "identifier" name :: Token.mk "symbol" "(" :: aToks) =
        some (Instr.push "pointer" 0 :: argCode ++
          [Instr.call (cn ++ "." ++ name) (1 + k)], rest)) ∧
    (∀ (x sub seg tx : String) (idx : Nat),
      (st.current_symbol_table_contains x ||
        st.class_level_symbol_table_contains x) = true →
      write_push st x = [Instr.push seg idx] →
      st.type_of x = some tx →
      compile_subroutine_call cn st (f + 3)
        (Token.mk "identifier" x :: Token.mk "symbol" "." ::
          Token.mk "identifier" sub :: Token.mk "symbol" "(" :: aToks) =
        some (Instr.push seg idx :: argCode ++
          [Instr.call (tx ++ "." ++ sub) (1 + k)], rest) ∧
      write_identifier_term cn st (f + 3)
        (Token.mk "identifier" x :: Token.mk "symbol" "." ::
          Token.mk "identifier" sub :: Token.mk "symbol" "(" :: aToks) =
        some (Instr.push seg idx :: argCode ++
          [Instr.call (tx ++ "." ++ sub) (1 + k)], rest)) ∧
    (∀ x sub : String,
      st.current_symbol_table_contains x = false →
      st.class_level_symbol_table_contains x = false →
      compile_subroutine_call cn st (f + 3)
        (Token.mk "identifier" x :: Token.mk "symbol" "." ::
          Token.mk "identifier" sub :: Token.mk "symbol" "(" :: aToks) =
        some (argCode ++ [Instr.call (x ++ "." ++ sub) k], rest) ∧
      write_identifier_term cn st (f + 3)
        (Token.mk "identifier" x :: Token.mk "symbol" "." ::
          Token.mk "identifier" sub :: Token.mk "symbol" "(" :: aToks) =
        some (argCode ++ [Instr.call (x ++ "." ++ sub) k], rest)) := by
  have hA2 := hArgs (f + 2) (by omega)
  have hA1 := hArgs (f + 1) (by omega)
  refine ⟨?_, ?_, ?_⟩
  · intro name
    constructor
    · rw [show f + 3 = (f + 2) + 1 from rfl, compile_subroutine_call]
      simp [advance, nextTokenValueIn, hA2]
    · rw [show f + 3 = (f + 2) + 1 from rfl, write_identifier_term]
      simp [advance, nextTokenValueIn, write_left_square_bracket, hA2]
  · intro x sub seg tx idx hin hpush htype
    have hpn : write_precise_subroutine_name st x
        (Token.mk "symbol" "." :: Token.mk "identifier" sub ::
          Token.mk "symbol" "(" :: aToks) =
        some (1, [Instr.push seg idx], tx ++ "." ++ sub,
          Token.mk "symbol" "(" :: aToks) := by
      rw [write_precise_subroutine_name]
      simp [advance, hin, hpush, typeOfStr, htype]
    constructor
    · rw [show f + 3 = (f + 2) + 1 from rfl, compile_subroutine_call]
      simp [advance, nextTokenValueIn, hpn, hA2]
    · rw [show f + 3 = (f + 2) + 1 from rfl, write_identifier_term]
      simp [advance, nextTokenValueIn, write_left_square_bracket,
        write_period_and_array_end, hpn, hA1]
  · intro x sub hn1 hn2
    have hpn : write_precise_subroutine_name st x
        (Token.mk "symbol" "." :: Token.mk "identifier" sub ::
          Token.mk "symbol" "(" :: aToks) =
        some (0, [], x ++ "." ++ sub, Token.mk "symbol" "(" :: aToks) := by
      rw [write_precise_subroutine_name]
      simp [advance, hn1, hn2]
    constructor
    · rw [show f + 3 = (f + 2) + 1 from rfl, compile_subroutine_call]
      simp [advance, nextTokenValueIn, hpn, hA2]
    · rw [show f + 3 = (f + 2) + 1 from rfl, write_identifier_term]
      simp [advance, nextTokenValueIn, write_left_square_bracket,
        write_period_and_array_end, hpn, hA1]

/-- Witness for C1: one `int` argument `7`, receiver `obj` a local of
type `Point` at index 0 for the qualified-known case, `Screen` unknown
for the qualified-unknown case. -/
theorem c1_witness :
    compile_subroutine_call "C"
      (((SymbolTable.init.start_subroutine "C.f").set_cur "C.f").define
        "obj" "Point" "var") 6
      (Token.mk "identifier" "bar" :: Token.mk "symbol" "(" ::
        [Token.mk "integerConstant" "7", Token.mk "symbol" ")"]) =
      some (Instr.push "pointer" 0 :: [Instr.push "constant" 7] ++
        [Instr.call ("C" ++ "." ++ "bar") (1 + 1)], []) ∧
    compile_subroutine_call "C"
      (((SymbolTable.init.start_subroutine "C.f").set_cur "C.f").define
        "obj" "Point" "var") 6
      (Token.mk "identifier" "obj" :: Token.mk "symbol" "." ::
        Token.mk "identifier" "bar" :: Token.mk "symbol" "(" ::
        [Token.mk "integerConstant" "7", Token.mk "symbol" ")"]) =
      some (Instr.push "local" 0 :: [Instr.push "constant" 7] ++
        [Instr.call ("Point" ++ "." ++ "bar") (1 + 1)], []) ∧
    write_identifier_term "C"
      (((SymbolTable.init.start_subroutine "C.f").set_cur "C.f").define
        "obj" "Point" "var") 6
      (Token.mk "identifier" "Screen" :: Token.mk "symbol" "." ::
        Token.mk "identifier" "bar" :: Token.mk "symbol" "(" ::
        [Token.mk "integerConstant" "7", Token.mk "symbol" ")"]) =
      some ([Instr.push "constant" 7] ++
        [Instr.call ("Screen" ++ "." ++ "bar") 1], []) := by
  have ht : ∀ g, compile_term "C"
      (((SymbolTable.init.start_subroutine "C.f").set_cur "C.f").define
        "obj" "Point" "var") (g + 1)
      [Token.mk "integerConstant" "7", Token.mk "symbol" ")"] =
      some ([Instr.push "constant" 7], [Token.mk "symbol" ")"]) := by
    intro g
    rw [compile_term]
    rw [if_pos (by decide)]
    decide
  have hl : ∀ g, expr_loop "C"
      (((SymbolTable.init.start_subroutine "C.f").set_cur "C.f").define
        "obj" "Point" "var") (g + 1) [Token.mk "symbol" ")"] =
      some ([], [Token.mk "symbol" ")"]) := by
    intro g
    rw [expr_loop]
    rw [if_neg (by decide)]
    rfl
  have he : ∀ g, compile_expression "C"
      (((SymbolTable.init.start_subroutine "C.f").set_cur "C.f").define
        "obj" "Point" "var") (g + 2)
      [Token.mk "integerConstant" "7", Token.mk "symbol" ")"] =
      some ([Instr.push "constant" 7], [Token.mk "symbol" ")"]) := by
    intro g
    rw [show g + 2 = (g + 1) + 1 from rfl, compile_expression]
    simp [ht g, hl g]
  have hll : ∀ g, expr_list_loop "C"
      (((SymbolTable.init.start_subroutine "C.f").set_cur "C.f").define
        "obj" "Point" "var") (g + 1) [Token.mk "symbol" ")"] =
      some ([], 0, [Token.mk "symbol" ")"]) := by
    intro g
    rw [expr_list_loop]
    rw [if_neg (by decide)]
    rfl
  have hArgs : ∀ g, 3 ≤ g → compile_expression_list "C"
      (((SymbolTable.init.start_subroutine "C.f").set_cur "C.f").define
        "obj" "Point" "var") g
      [Token.mk "integerConstant" "7", Token.mk "symbol" ")"] =
      some ([Instr.push "constant" 7], 1, [Token.mk "symbol" ")"]) := by
    intro g hg
    obtain ⟨g', rfl⟩ : ∃ g', g = g' + 3 := ⟨g - 3, by omega⟩
    rw [show g' + 3 = (g' + 2) + 1 from rfl, compile_expression_list]
    rw [if_pos (by decide)]
    simp [he g', hll (g' + 1)]
  have h1 := (c1_call_disambiguation "C"
    (((SymbolTable.init.start_subroutine "C.f").set_cur "C.f").define
      "obj" "Point" "var") 3 1
    [Token.mk "integerConstant" "7", Token.mk "symbol" ")"]
    [Instr.push "constant" 7] [] hArgs).1 "bar"
  have h2 := (c1_call_disambiguation "C"
    (((SymbolTable.init.start_subroutine "C.f").set_cur "C.f").define
      "obj" "Point" "var") 3 1
    [Token.mk "integerConstant" "7", Token.mk "symbol" ")"]
    [Instr.push "constant" 7] [] hArgs).2.1 "obj" "bar" "local" "Point" 0
    (by decide) (by decide) (by decide)
  have h3 := (c1_call_disambiguation "C"
    (((SymbolTable.init.start_subroutine "C.f").set_cur "C.f").define
      "obj" "Point" "var") 3 1
    [Token.mk "integerConstant" "7", Token.mk "symbol" ")"]
    [Instr.push "constant" 7] [] hArgs).2.2 "Screen" "bar"
    (by decide) (by decide)
  exact ⟨h1.1, h2.1, h3.2⟩

/-! ### C8 — the `while (x) { let y = 1; }` scenario -/

/-- C8: compiling `while (x) { let y = 1; }` as the first while of a
subroutine (while counter 0), with `x` resolving to `push sx ix` and
`y` to `pop sy iy`, emits exactly
`label WHILE_START0 / push sx ix / not / if-goto WHILE_END0 /
push constant 1 / pop sy iy / goto WHILE_START0 / label WHILE_END0`. -/
theorem c8_while_let_scenario (cn x y sx sy : String) (ix iy : Nat)
    (st : SymbolTable) (f : Nat) (rest : List Token)
    (hwc : st.whileCounter = 0)
    (hpush : write_push st x = [Instr.push sx ix])
    (hpop : write_pop st y = [Instr.pop sy iy])
    (hx1 : x ≠ "true") (hx2 : x ≠ "false") (hx3 : x ≠ "null")
    (hx4 : x ≠ "this") :
    compile_while cn (f + 5) st
      ([Token.mk "keyword" "while", Token.mk "symbol" "(",
        Token.mk "identifier" x, Token.mk "symbol" ")",
        Token.mk "symbol" "\x7b", Token.mk "keyword" "let",
        Token.mk "identifier" y, Token.mk "symbol" "=",
        Token.mk "integerConstant" "1", Token.mk "symbol" ";",
        Token.mk "symbol" "\x7d"] ++ rest) =
      some ([Instr.label "WHILE_START0", Instr.push sx ix,
        Instr.arith "not", Instr.ifGoto "WHILE_END0",
        Instr.push "constant" 1, Instr.pop sy iy,
        Instr.goto "WHILE_START0", Instr.label "WHILE_END0"],
        st.increment_while_counter, rest) := by
  have hpw : write_push st.increment_while_counter x =
      [Instr.push sx ix] := hpush
  have hpo : write_pop st.increment_while_counter y =
      [Instr.pop sy iy] := hpop
  have hterm : ∀ (g : Nat) (rs : List Token),
      compile_term cn st.increment_while_counter (g + 3)
        (Token.mk "identifier" x :: Token.mk "symbol" ")" :: rs) =
      some ([Instr.push sx ix], Token.mk "symbol" ")" :: rs) := by
    intro g rs
    rw [show g + 3 = (g + 2) + 1 from rfl, compile_term]
    rw [if_neg (by
      simp [nextTokenTypeIn, nextTokenValueIn, keywordConstants,
        hx1, hx2, hx3, hx4])]
    rw [if_pos (by simp [nextTokenTypeIn])]
    rw [show g + 2 = (g + 1) + 1 from rfl, write_identifier_term]
    simp [advance, write_left_square_bracket, nextTokenValueIn,
      write_period_and_array_end, hpw]
  have hcond : ∀ (g : Nat) (rs : List Token),
      compile_expression cn st.increment_while_counter (g + 4)
        (Token.mk "identifier" x :: Token.mk "symbol" ")" :: rs) =
      some ([Instr.push sx ix], Token.mk "symbol" ")" :: rs) := by
    intro g rs
    rw [show g + 4 = (g + 3) + 1 from rfl, compile_expression]
    simp [hterm g rs, expr_loop, nextTokenValueIn, binaryOps]
  have h1dec : parseDecimal "1".data = 1 := by decide
  have hexpr1 : ∀ (g : Nat),
      compile_expression cn st.increment_while_counter (g + 2)
        (Token.mk "integerConstant" "1" :: Token.mk "symbol" ";" ::
          Token.mk "symbol" "\x7d" :: rest) =
      some ([Instr.push "constant" 1], Token.mk "symbol" ";" ::
        Token.mk "symbol" "\x7d" :: rest) := by
    intro g
    rw [show g + 2 = (g + 1) + 1 from rfl, compile_expression]
    rw [compile_term]
    rw [if_pos (by simp [nextTokenTypeIn])]
    simp [write_integer_string_keyword_constant, nextTokenTypeIn,
      advance, h1dec, expr_loop, nextTokenValueIn, binaryOps]
  have hlet : ∀ (g : Nat),
      compile_let cn (g + 2) st.increment_while_counter
        (Token.mk "keyword" "let" :: Token.mk "identifier" y ::
          Token.mk "symbol" "=" :: Token.mk "integerConstant" "1" ::
          Token.mk "symbol" ";" :: Token.mk "symbol" "\x7d" :: rest) =
      some ([Instr.push "constant" 1, Instr.pop sy iy],
        st.increment_while_counter, Token.mk "symbol" "\x7d" :: rest) := by
    intro g
    rw [compile_let]
    simp [advance, write_left_square_bracket, nextTokenValueIn,
      hexpr1 g, hpo]
  have hstmts : ∀ (g : Nat),
      compile_statements cn (g + 3) st.increment_while_counter
        (Token.mk "keyword" "let" :: Token.mk "identifier" y ::
          Token.mk "symbol" "=" :: Token.mk "integerConstant" "1" ::
          Token.mk "symbol" ";" :: Token.mk "symbol" "\x7d" :: rest) =
      some ([Instr.push "constant" 1, Instr.pop sy iy],
        st.increment_while_counter, Token.mk "symbol" "\x7d" :: rest) := by
    intro g
    rw [show g + 3 = (g + 2) + 1 from rfl, compile_statements]
    rw [if_pos (by simp [nextTokenValueIn, statementKeywords])]
    simp [hlet g]
    rw [show g + 2 = (g + 1) + 1 from rfl, compile_statements]
    rw [if_neg (by simp [nextTokenValueIn, statementKeywords])]
    simp
  have hlab1 : "WHILE_START" ++ natStr 0 = "WHILE_START0" := rfl
  have hlab2 : "WHILE_END" ++ natStr 0 = "WHILE_END0" := rfl
  rw [show f + 5 = (f + 4) + 1 from rfl, compile_while]
  simp [advance, hwc, hcond f, hstmts (f + 1), hlab1, hlab2]

/-- Witness for C8: `x` and `y` are the locals 0 and 1 of a fresh
subroutine scope; the loop compiles to the eight expected
instructions. -/
theorem c8_witness :
    compile_while "C" 5
      ((((SymbolTable.init.start_subroutine "C.f").set_cur "C.f").define
        "x" "int" "var").define "y" "int" "var")
      [Token.mk "keyword" "while", Token.mk "symbol" "(",
        Token.mk "identifier" "x", Token.mk "symbol" ")",
        Token.mk "symbol" "\x7b", Token.mk "keyword" "let",
        Token.mk "identifier" "y", Token.mk "symbol" "=",
        Token.mk "integerConstant" "1", Token.mk "symbol" ";",
        Token.mk "symbol" "\x7d"] =
      some ([Instr.label "WHILE_START0", Instr.push "local" 0,
        Instr.arith "not", Instr.ifGoto "WHILE_END0",
        Instr.push "constant" 1, Instr.pop "local" 1,
        Instr.goto "WHILE_START0", Instr.label "WHILE_END0"],
        ((((SymbolTable.init.start_subroutine "C.f").set_cur "C.f").define
          "x" "int" "var").define "y" "int"
          "var").increment_while_counter, []) :=
  c8_while_let_scenario "C" "x" "y" "local" "local" 0 1
    ((((SymbolTable.init.start_subroutine "C.f").set_cur "C.f").define
      "x" "int" "var").define "y" "int" "var") 0 []
    (by decide) (by decide) (by decide) (by decide) (by decide)
    (by decide) (by decide)

/-! ### C9 — binary operators: strict left-to-right, no precedence -/

/-- The instruction(s) the expression loop emits for one binary
operator: a two-argument library call for `*`/`/`, one arithmetic
instruction otherwise (mirrors the `op` branch of
`__compile_expression`). -/
def binOpCode (op : String) : List Instr :=
  match callBinaryOpDict op with
  | some nm => [Instr.call nm 2]
  | none =>
    match arithBinaryOpDict op with
    | some ar => [Instr.arith ar]
    | none => []

/-- The token stream `op1 t2 op2 t3 ... opn t(n+1)` that follows the
first term of an expression. -/
def opsStream : List (String × List Token × List Instr) → List Token →
    List Token
  | [], rest => rest
  | (op, chunk, _) :: l, rest =>
      Token.mk "symbol" op :: (chunk ++ opsStream l rest)

/-- The code the loop is expected to emit: each term's code followed
by its operator's instruction, left to right. -/
def opsCode : List (String × List Token × List Instr) → List Instr
  | [] => []
  | (op, _, code) :: l => code ++ binOpCode op ++ opsCode l

/-- Each `(op, chunk, code)` triple is a binary operator followed by a
term whose tokens compile (with any fuel at least `F`) to exactly
`code`, consuming exactly `chunk`. -/
def ChunksOk (cn : String) (st : SymbolTable) (F : Nat) :
    List (String × List Token × List Instr) → List Token → Prop
  | [], _ => True
  | (op, chunk, code) :: l, rest =>
      binaryOps.contains op = true ∧
      (∀ g, F ≤ g → compile_term cn st g (chunk ++ opsStream l rest) =
        some (code, opsStream l rest)) ∧
      ChunksOk cn st F l rest

theorem expr_loop_chunks : ∀ (L : List (String × List Token × List Instr))
    (cn : String) (st : SymbolTable) (F f : Nat) (rest : List Token),
    ChunksOk cn st F L rest →
    nextTokenValueIn rest binaryOps = false →
    F + L.length + 1 ≤ f →
    expr_loop cn st f (opsStream L rest) = some (opsCode L, rest) := by
  intro L
  induction L with
  | nil =>
    intro cn st F f rest _ hrest hf
    obtain ⟨f', rfl⟩ : ∃ f', f = f' + 1 := ⟨f - 1, by omega⟩
    rw [show opsStream ([] : List (String × List Token × List Instr)) rest =
      rest from rfl]
    rw [expr_loop]
    rw [if_neg (by rw [hrest]; exact Bool.false_ne_true)]
    rfl
  | cons p l ih =>
    intro cn st F f rest hok hrest hf
    obtain ⟨op, chunk, code⟩ := p
    obtain ⟨hop, hterm, hok'⟩ := hok
    obtain ⟨f', rfl⟩ : ∃ f', f = f' + 1 := ⟨f - 1, by omega⟩
    rw [expr_loop]
    rw [if_pos (by simp only [opsStream, nextTokenValueIn]; simpa using hop)]
    have ht := hterm f' (by simp [List.length] at hf; omega)
    have hl := ih cn st F f' rest hok' hrest
      (by simp [List.length] at hf ⊢; omega)
    simp [opsStream, advance, ht, hl, opsCode, binOpCode]

/-- C9: an expression `t1 op1 t2 op2 ... opn t(n+1)` compiles to
`t1`'s code, then `t2`'s code followed by `op1`'s instruction, then
`t3`'s code followed by `op2`'s instruction, and so on — every binary
operator (including `*` and `/`, which become two-argument library
calls) is applied left to right with no precedence. -/
theorem c9_left_to_right_no_precedence (cn : String) (st : SymbolTable)
    (F f : Nat) (t1chunk : List Token) (t1code : List Instr)
    (L : List (String × List Token × List Instr)) (rest : List Token)
    (ht1 : ∀ g, F ≤ g → compile_term cn st g
      (t1chunk ++ opsStream L rest) = some (t1code, opsStream L rest))
    (hL : ChunksOk cn st F L rest)
    (hrest : nextTokenValueIn rest binaryOps = false)
    (hf : F + L.length + 2 ≤ f) :
    compile_expression cn st f (t1chunk ++ opsStream L rest) =
      some (t1code ++ opsCode L, rest) := by
  obtain ⟨f', rfl⟩ : ∃ f', f = f' + 1 := ⟨f - 1, by omega⟩
  rw [compile_expression]
  have ht := ht1 f' (by omega)
  have hl := expr_loop_chunks L cn st F f' rest hL hrest (by omega)
  simp [ht, hl]

/-- Witness for C9: `1 + 2 * 3` compiles to
`push 1 / push 2 / add / push 3 / call Math.multiply 2` — i.e.
`(1 + 2) * 3`, not `1 + (2 * 3)`. -/
theorem c9_witness :
    compile_expression "C" SymbolTable.init 5
      [Token.mk "integerConstant" "1", Token.mk "symbol" "+",
        Token.mk "integerConstant" "2", Token.mk "symbol" "*",
        Token.mk "integerConstant" "3"] =
      some ([Instr.push "constant" 1, Instr.push "constant" 2,
        Instr.arith "add", Instr.push "constant" 3,
        Instr.call "Math.multiply" 2], []) := by
  have ht1 : ∀ g, 1 ≤ g → compile_term "C" SymbolTable.init g
      [Token.mk "integerConstant" "1", Token.mk "symbol" "+",
        Token.mk "integerConstant" "2", Token.mk "symbol" "*",
        Token.mk "integerConstant" "3"] =
      some ([Instr.push "constant" 1],
        [Token.mk "symbol" "+", Token.mk "integerConstant" "2",
          Token.mk "symbol" "*", Token.mk "integerConstant" "3"]) := by
    intro g hg
    obtain ⟨g', rfl⟩ : ∃ g', g = g' + 1 := ⟨g - 1, by omega⟩
    rw [compile_term]
    rw [if_pos (by decide)]
    decide
  have ht2 : ∀ g, 1 ≤ g → compile_term "C" SymbolTable.init g
      [Token.mk "integerConstant" "2", Token.mk "symbol" "*",
        Token.mk "integerConstant" "3"] =
      some ([Instr.push "constant" 2],
        [Token.mk "symbol" "*", Token.mk "integerConstant" "3"]) := by
    intro g hg
    obtain ⟨g', rfl⟩ : ∃ g', g = g' + 1 := ⟨g - 1, by omega⟩
    rw [compile_term]
    rw [if_pos (by decide)]
    decide
  have ht3 : ∀ g, 1 ≤ g → compile_term "C" SymbolTable.init g
      [Token.mk "integerConstant" "3"] =
      some ([Instr.push "constant" 3], []) := by
    intro g hg
    obtain ⟨g', rfl⟩ : ∃ g', g = g' + 1 := ⟨g - 1, by omega⟩
    rw [compile_term]
    rw [if_pos (by decide)]
    decide
  exact c9_left_to_right_no_precedence "C" SymbolTable.init 1 5
    [Token.mk "integerConstant" "1"] [Instr.push "constant" 1]
    [("+", [Token.mk "integerConstant" "2"], [Instr.push "constant" 2]),
      ("*", [Token.mk "integerConstant" "3"], [Instr.push "constant" 3])]
    [] ht1 ⟨by decide, ht2, by decide, ht3, trivial⟩ (by decide) (by decide)

/-! ### C5 — contiguous per-kind indices and index stability -/

/-- A whole declaration sequence fed to `define`: each element is
`(name, type, kind)`. -/
def defineAll (st : SymbolTable) (ds : List (String × String × String)) :
    SymbolTable :=
  ds.foldl (fun s d => s.define d.1 d.2.1 d.2.2) st

/-- The indices of the rows of one kind, in table (= declaration)
order. -/
def kindIndices (kind : String) (tbl : List (String × Entry)) : List Nat :=
  (tbl.filter (fun p => p.2.kind = kind)).map (fun p => p.2.index)

theorem aupsert_append {α : Type} (l : List (String × α)) (n : String)
    (v : α) (hn : n ∉ l.map Prod.fst) : aupsert l n v = l ++ [(n, v)] := by
  induction l with
  | nil => rfl
  | cons p rest ih =>
    simp only [List.map, List.mem_cons, not_or] at hn
    simp only [aupsert]
    rw [if_neg (fun h => hn.1 h.symm), ih hn.2]
    rfl

theorem alookup_some_mem {α : Type} (l : List (String × α)) (x : String)
    (v : α) (h : alookup l x = some v) : x ∈ l.map Prod.fst := by
  induction l with
  | nil => cases h
  | cons p rest ih =>
    rw [alookup] at h
    by_cases he : p.1 = x
    · simp [he]
    · rw [if_neg he] at h
      simp [ih h]

theorem kindIndices_append (k : String) (l1 l2 : List (String × Entry)) :
    kindIndices k (l1 ++ l2) = kindIndices k l1 ++ kindIndices k l2 := by
  simp [kindIndices, List.filter_append]

/-- The invariant C5 rides on: the current scope is the subroutine
table stored under `sn`, all keys come from `used`, and within every
`(scope, kind)` partition the indices (in table order) are exactly
`0, 1, ..., counter - 1`. -/
def TableInv (sn : String) (used : List String) (st : SymbolTable) : Prop :=
  st.cur = sn ∧
  ∃ ct, alookup st.subTables sn = some ct ∧
    st.classTable.map Prod.fst ⊆ used ∧
    ct.map Prod.fst ⊆ used ∧
    kindIndices "static" st.classTable = List.range st.staticCounter ∧
    kindIndices "field" st.classTable = List.range st.fieldCounter ∧
    kindIndices "arg" ct = List.range st.argCounter ∧
    kindIndices "var" ct = List.range st.varCounter

theorem TableInv_mono (sn : String) (used used' : List String)
    (st : SymbolTable) (hsub : used ⊆ used') (h : TableInv sn used st) :
    TableInv sn used' st := by
  obtain ⟨hcur, ct, hct, h1, h2, h3, h4, h5, h6⟩ := h
  exact ⟨hcur, ct, hct, fun a ha => hsub (h1 ha), fun a ha => hsub (h2 ha),
    h3, h4, h5, h6⟩

theorem TableInv_define (sn : String) (used : List String)
    (st : SymbolTable) (n t k : String) (hsn : sn ≠ "class")
    (hInv : TableInv sn used st) (hn : n ∉ used) :
    TableInv sn (used ++ [n]) (st.define n t k) := by
  obtain ⟨hcur, ct, hct, h1, h2, h3, h4, h5, h6⟩ := hInv
  have hcur' : ¬ st.cur = "class" := by rw [hcur]; exact hsn
  have hcurT : st.curTable = ct := by
    rw [SymbolTable.curTable, if_neg hcur', hcur, hct]
    rfl
  have hnc : n ∉ st.classTable.map Prod.fst := fun h => hn (h1 h)
  have hnct : n ∉ ct.map Prod.fst := fun h => hn (h2 h)
  have hsub : used ⊆ used ++ [n] := fun a ha => by simp [ha]
  by_cases hk1 : k = "static"
  · subst hk1
    rw [SymbolTable.define, if_pos rfl]
    refine ⟨hcur, ct, hct, ?_, fun a ha => hsub (h2 ha), ?_, ?_, h5, h6⟩
    · rw [aupsert_append _ _ _ hnc]
      simp only [List.map_append, List.map]
      intro a ha
      rcases List.mem_append.mp ha with hl | hr
      · exact hsub (h1 hl)
      · simp at hr
        simp [hr]
    · rw [aupsert_append _ _ _ hnc, kindIndices_append, h3]
      simp [kindIndices, List.range_succ]
    · rw [aupsert_append _ _ _ hnc, kindIndices_append, h4]
      simp [kindIndices]
  · by_cases hk2 : k = "field"
    · subst hk2
      rw [SymbolTable.define, if_neg (by decide), if_pos rfl]
      refine ⟨hcur, ct, hct, ?_, fun a ha => hsub (h2 ha), ?_, ?_, h5, h6⟩
      · rw [aupsert_append _ _ _ hnc]
        simp only [List.map_append, List.map]
        intro a ha
        rcases List.mem_append.mp ha with hl | hr
        · exact hsub (h1 hl)
        · simp at hr
          simp [hr]
      · rw [aupsert_append _ _ _ hnc, kindIndices_append, h3]
        simp [kindIndices]
      · rw [aupsert_append _ _ _ hnc, kindIndices_append, h4]
        simp [kindIndices, List.range_succ]
    · by_cases hk3 : k = "arg"
      · subst hk3
        rw [SymbolTable.define, if_neg (by decide), if_neg (by decide),
          if_pos rfl]
        rw [SymbolTable.setCurTableData, hcurT, if_neg hcur']
        refine ⟨hcur, aupsert ct n ⟨t, "arg", st.argCounter⟩, ?_,
          fun a ha => hsub (h1 ha), ?_, h3, h4, ?_, ?_⟩
        · simp only [hcur]
          exact alookup_aupsert_self _ _ _
        · rw [aupsert_append _ _ _ hnct]
          simp only [List.map_append, List.map]
          intro a ha
          rcases List.mem_append.mp ha with hl | hr
          · exact hsub (h2 hl)
          · simp at hr
            simp [hr]
        · rw [aupsert_append _ _ _ hnct, kindIndices_append, h5]
          simp [kindIndices, List.range_succ]
        · rw [aupsert_append _ _ _ hnct, kindIndices_append, h6]
          simp [kindIndices]
      · by_cases hk4 : k = "var"
        · subst hk4
          rw [SymbolTable.define, if_neg (by decide), if_neg (by decide),
            if_neg (by decide), if_pos rfl]
          rw [SymbolTable.setCurTableData, hcurT, if_neg hcur']
          refine ⟨hcur, aupsert ct n ⟨t, "var", st.varCounter⟩, ?_,
            fun a ha => hsub (h1 ha), ?_, h3, h4, ?_, ?_⟩
          · simp only [hcur]
            exact alookup_aupsert_self _ _ _
          · rw [aupsert_append _ _ _ hnct]
            simp only [List.map_append, List.map]
            intro a ha
            rcases List.mem_append.mp ha with hl | hr
            · exact hsub (h2 hl)
            · simp at hr
              simp [hr]
          · rw [aupsert_append _ _ _ hnct, kindIndices_append, h5]
            simp [kindIndices]
          · rw [aupsert_append _ _ _ hnct, kindIndices_append, h6]
            simp [kindIndices, List.range_succ]
        · rw [SymbolTable.define, if_neg hk1, if_neg hk2, if_neg hk3,
            if_neg hk4]
          exact TableInv_mono sn used _ _ hsub
            ⟨hcur, ct, hct, h1, h2, h3, h4, h5, h6⟩

theorem TableInv_defineAll : ∀ (ds : List (String × String × String))
    (sn : String) (used : List String) (st : SymbolTable),
    sn ≠ "class" → TableInv sn used st →
    (used ++ ds.map Prod.fst).Nodup →
    TableInv sn (used ++ ds.map Prod.fst) (defineAll st ds) := by
  intro ds
  induction ds with
  | nil => intro sn used st _ h _; simpa using h
  | cons d ds ih =>
    intro sn used st hsn hInv hnd
    have hn : d.1 ∉ used := by
      intro hmem
      have : ¬ (used ++ d.1 :: ds.map Prod.fst).Nodup := by
        intro hc
        have := List.disjoint_of_nodup_append hc
        exact absurd (by simp : d.1 ∈ d.1 :: ds.map Prod.fst) (this hmem)
      exact this (by simpa using hnd)
    have hstep := TableInv_define sn used st d.1 d.2.1 d.2.2 hsn hInv hn
    have hnd' : ((used ++ [d.1]) ++ ds.map Prod.fst).Nodup := by
      simpa using hnd
    have := ih sn (used ++ [d.1]) (st.define d.1 d.2.1 d.2.2) hsn hstep hnd'
    rw [show defineAll st (d :: ds) =
      defineAll (st.define d.1 d.2.1 d.2.2) ds from rfl]
    refine TableInv_mono sn ((used ++ [d.1]) ++ ds.map Prod.fst) _ _
      (by intro a ha; simpa using (by simpa using ha)) this

theorem defineAll_append (st : SymbolTable)
    (ds1 ds2 : List (String × String × String)) :
    defineAll st (ds1 ++ ds2) = defineAll (defineAll st ds1) ds2 := by
  unfold defineAll
  exact List.foldl_append _ _ _ _

theorem define_preserves_index (st : SymbolTable) (n t k x : String)
    (hcur : ¬ st.cur = "class") (hx : x ≠ n) :
    (st.define n t k).index_of x = st.index_of x ∧
    (st.define n t k).cur = st.cur := by
  by_cases hk1 : k = "static"
  · subst hk1
    refine ⟨?_, rfl⟩
    simp [SymbolTable.define, SymbolTable.index_of, SymbolTable.curTable,
      hcur, alookup_aupsert_ne _ _ _ _ hx]
  · by_cases hk2 : k = "field"
    · subst hk2
      refine ⟨?_, rfl⟩
      simp [SymbolTable.define, SymbolTable.index_of, SymbolTable.curTable,
        hcur, alookup_aupsert_ne _ _ _ _ hx]
    · by_cases hk3 : k = "arg"
      · subst hk3
        constructor
        · simp [SymbolTable.define, SymbolTable.index_of,
            SymbolTable.curTable, SymbolTable.setCurTableData, hcur,
            alookup_aupsert_self, alookup_aupsert_ne _ _ _ _ hx]
        · simp [SymbolTable.define, SymbolTable.setCurTableData, hcur]
      · by_cases hk4 : k = "var"
        · subst hk4
          constructor
          · simp [SymbolTable.define, SymbolTable.index_of,
              SymbolTable.curTable, SymbolTable.setCurTableData, hcur,
              alookup_aupsert_self, alookup_aupsert_ne _ _ _ _ hx]
          · simp [SymbolTable.define, SymbolTable.setCurTableData, hcur]
        · rw [SymbolTable.define, if_neg hk1, if_neg hk2, if_neg hk3,
            if_neg hk4]
          exact ⟨rfl, rfl⟩

theorem defineAll_preserves_index : ∀ (ds : List (String × String × String))
    (st : SymbolTable) (x : String) (i : Nat),
    ¬ st.cur = "class" → x ∉ ds.map Prod.fst →
    st.index_of x = some i →
    (defineAll st ds).index_of x = some i := by
  intro ds
  induction ds with
  | nil => intro st x i _ _ h; exact h
  | cons d ds ih =>
    intro st x i hcur hx h
    simp only [List.map, List.mem_cons, not_or] at hx
    have hstep := define_preserves_index st d.1 d.2.1 d.2.2 x hcur hx.1
    rw [show defineAll st (d :: ds) =
      defineAll (st.define d.1 d.2.1 d.2.2) ds from rfl]
    exact ih _ x i (by rw [hstep.2]; exact hcur) hx.2
      (by rw [hstep.1]; exact h)

/-- C5: feeding `define` a sequence of pairwise-distinct names from a
fresh subroutine state gives, within each `(scope, kind)` partition —
class scope for `static`/`field`, subroutine scope for `arg`/`var` —
the contiguous index sequence `0, 1, 2, ...` in declaration order; and
the index `index_of` reports for a symbol after any prefix of the
declarations never changes as the remaining declarations are made. -/
theorem c5_contiguous_stable_indices (sn : String)
    (ds : List (String × String × String)) (hsn : sn ≠ "class")
    (hnd : (ds.map Prod.fst).Nodup) :
    (kindIndices "static"
      (defineAll ((SymbolTable.init.start_subroutine sn).set_cur sn)
        ds).classTable =
      List.range (((defineAll ((SymbolTable.init.start_subroutine
        sn).set_cur sn) ds).classTable.filter
        (fun p => p.2.kind = "static")).length) ∧
     kindIndices "field"
      (defineAll ((SymbolTable.init.start_subroutine sn).set_cur sn)
        ds).classTable =
      List.range (((defineAll ((SymbolTable.init.start_subroutine
        sn).set_cur sn) ds).classTable.filter
        (fun p => p.2.kind = "field")).length) ∧
     kindIndices "arg"
      (defineAll ((SymbolTable.init.start_subroutine sn).set_cur sn)
        ds).curTable =
      List.range (((defineAll ((SymbolTable.init.start_subroutine
        sn).set_cur sn) ds).curTable.filter
        (fun p => p.2.kind = "arg")).length) ∧
     kindIndices "var"
      (defineAll ((SymbolTable.init.start_subroutine sn).set_cur sn)
        ds).curTable =
      List.range (((defineAll ((SymbolTable.init.start_subroutine
        sn).set_cur sn) ds).curTable.filter
        (fun p => p.2.kind = "var")).length)) ∧
    (∀ ds1 ds2, ds = ds1 ++ ds2 → ∀ (x : String) (i : Nat),
      (defineAll ((SymbolTable.init.start_subroutine sn).set_cur sn)
        ds1).index_of x = some i →
      (defineAll ((SymbolTable.init.start_subroutine sn).set_cur sn)
        ds).index_of x = some i) := by
  have h0 : TableInv sn []
      ((SymbolTable.init.start_subroutine sn).set_cur sn) := by
    refine ⟨rfl, [], ?_,
      by simp [SymbolTable.init, SymbolTable.start_subroutine,
        SymbolTable.set_cur],
      by simp, rfl, rfl, rfl, rfl⟩
    simp [SymbolTable.init, SymbolTable.start_subroutine,
      SymbolTable.set_cur, aupsert, alookup]
  constructor
  · have hfin := TableInv_defineAll ds sn []
      ((SymbolTable.init.start_subroutine sn).set_cur sn) hsn h0
      (by simpa using hnd)
    obtain ⟨hcur, ct, hct, hkc, hkt, h3, h4, h5, h6⟩ := hfin
    have hcurT : (defineAll ((SymbolTable.init.start_subroutine
        sn).set_cur sn) ds).curTable = ct := by
      rw [SymbolTable.curTable, if_neg (by rw [hcur]; exact hsn), hcur, hct]
      rfl
    have hlen : ∀ (k : String) (tbl : List (String × Entry)) (c : Nat),
        kindIndices k tbl = List.range c →
        (tbl.filter (fun p => p.2.kind = k)).length = c := by
      intro k tbl c h
      have := congrArg List.length h
      simpa [kindIndices] using this
    refine ⟨?_, ?_, ?_, ?_⟩
    · rw [h3, hlen "static" _ _ h3]
    · rw [h4, hlen "field" _ _ h4]
    · rw [hcurT, h5, hlen "arg" _ _ h5]
    · rw [hcurT, h6, hlen "var" _ _ h6]
  · intro ds1 ds2 heq x i h
    subst heq
    have hnd1 : (ds1.map Prod.fst).Nodup ∧ (ds2.map Prod.fst).Nodup ∧
        ∀ a ∈ ds1.map Prod.fst, a ∉ ds2.map Prod.fst := by
      rw [List.map_append, List.nodup_append] at hnd
      exact ⟨hnd.1, hnd.2.1, fun a ha hb => hnd.2.2 ha hb⟩
    have hInv1 := TableInv_defineAll ds1 sn []
      ((SymbolTable.init.start_subroutine sn).set_cur sn) hsn h0
      (by simpa using hnd1.1)
    obtain ⟨hcur1, ct1, hct1, hkc1, hkt1, _, _, _, _⟩ := hInv1
    have hcurT1 : (defineAll ((SymbolTable.init.start_subroutine
        sn).set_cur sn) ds1).curTable = ct1 := by
      rw [SymbolTable.curTable, if_neg (by rw [hcur1]; exact hsn),
        hcur1, hct1]
      rfl
    have hxin : x ∈ ds1.map Prod.fst := by
      rw [SymbolTable.index_of] at h
      rcases hl : alookup (defineAll ((SymbolTable.init.start_subroutine
          sn).set_cur sn) ds1).curTable x with _ | e
      · rw [hl] at h
        rcases hl2 : alookup (defineAll ((SymbolTable.init.start_subroutine
            sn).set_cur sn) ds1).classTable x with _ | e2
        · rw [hl2] at h
          cases h
        · exact hkc1 (alookup_some_mem _ _ _ hl2)
      · rw [hcurT1] at hl
        exact hkt1 (alookup_some_mem _ _ _ hl)
    rw [defineAll_append ((SymbolTable.init.start_subroutine sn).set_cur sn)
      ds1 ds2]
    exact defineAll_preserves_index ds2 _ x i
      (by rw [hcur1]; exact hsn) (hnd1.2.2 x hxin) h

/-- Witness for C5: the declarations
`field a; static s; arg x; field b; var y; var z` from a fresh
subroutine scope give fields indices 0,1, the static index 0, the arg
index 0 and var indices 0,1; and `a`'s index after the first three
declarations (0) is unchanged after all six. -/
theorem c5_witness :
    kindIndices "field"
      (defineAll ((SymbolTable.init.start_subroutine "C.f").set_cur "C.f")
        [("a", "int", "field"), ("s", "int", "static"), ("x", "int", "arg"),
         ("b", "int", "field"), ("y", "int", "var"), ("z", "int", "var")]
        ).classTable =
      List.range (((defineAll ((SymbolTable.init.start_subroutine
        "C.f").set_cur "C.f")
        [("a", "int", "field"), ("s", "int", "static"), ("x", "int", "arg"),
         ("b", "int", "field"), ("y", "int", "var"), ("z", "int", "var")]
        ).classTable.filter (fun p => p.2.kind = "field")).length) ∧
    kindIndices "var"
      (defineAll ((SymbolTable.init.start_subroutine "C.f").set_cur "C.f")
        [("a", "int", "field"), ("s", "int", "static"), ("x", "int", "arg"),
         ("b", "int", "field"), ("y", "int", "var"), ("z", "int", "var")]
        ).curTable =
      List.range (((defineAll ((SymbolTable.init.start_subroutine
        "C.f").set_cur "C.f")
        [("a", "int", "field"), ("s", "int", "static"), ("x", "int", "arg"),
         ("b", "int", "field"), ("y", "int", "var"), ("z", "int", "var")]
        ).curTable.filter (fun p => p.2.kind = "var")).length) ∧
    (defineAll ((SymbolTable.init.start_subroutine "C.f").set_cur "C.f")
        [("a", "int", "field"), ("s", "int", "static"), ("x", "int", "arg"),
         ("b", "int", "field"), ("y", "int", "var"), ("z", "int", "var")]
        ).index_of "a" = some 0 := by
  have hc := c5_contiguous_stable_indices "C.f"
    [("a", "int", "field"), ("s", "int", "static"), ("x", "int", "arg"),
     ("b", "int", "field"), ("y", "int", "var"), ("z", "int", "var")]
    (by decide) (by decide)
  refine ⟨hc.1.2.1, hc.1.2.2.2, ?_⟩
  exact hc.2 [("a", "int", "field"), ("s", "int", "static"),
    ("x", "int", "arg")]
    [("b", "int", "field"), ("y", "int", "var"), ("z", "int", "var")]
    rfl "a" 0 (by decide)

/-! ### C7 — label distinctness machinery: decoding label numbers -/

theorem parseDecimal_append_digit (l : List Char) (c : Char) :
    parseDecimal (l ++ [c]) = 10 * parseDecimal l + (c.toNat - 48) := by
  unfold parseDecimal
  rw [List.foldl_append]
  rfl

theorem digitVal_digitChar : ∀ d, d < 10 →
    (Nat.digitChar d).toNat - 48 = d := by decide

theorem parseDecimal_natDigitsAux : ∀ (fuel n : Nat), n ≤ fuel →
    parseDecimal (natDigitsAux fuel n) = n := by
  intro fuel
  induction fuel with
  | zero =>
    intro n hn
    interval_cases n
    decide
  | succ f ih =>
    intro n hn
    rw [natDigitsAux]
    by_cases h10 : n < 10
    · rw [if_pos h10]
      show parseDecimal ([] ++ [Nat.digitChar n]) = n
      rw [parseDecimal_append_digit]
      have := digitVal_digitChar n h10
      simp [parseDecimal, this]
    · rw [if_neg h10]
      rw [parseDecimal_append_digit]
      have hdiv : n / 10 < n := Nat.div_lt_self (by omega) (by omega)
      rw [ih (n / 10) (by omega)]
      rw [digitVal_digitChar (n % 10) (Nat.mod_lt n (by omega))]
      omega

theorem parseDecimal_natStr (n : Nat) :
    parseDecimal (natStr n).data = n :=
  parseDecimal_natDigitsAux n n (Nat.le_refl n)

/-- Does `l` begin with the characters `p`?  (Plain structural check,
used only to classify the generated label names.) -/
def startsWithChars : List Char → List Char → Bool
  | [], _ => true
  | a :: as, bs =>
    match bs with
    | [] => false
    | b :: bs' => if a = b then startsWithChars as bs' else false

theorem startsWithChars_exists : ∀ (p l : List Char),
    startsWithChars p l = true → ∃ t, l = p ++ t := by
  intro p
  induction p with
  | nil => intro l _; exact ⟨l, rfl⟩
  | cons a as ih =>
    intro l h
    match l with
    | [] => cases h
    | b :: bs =>
      rw [startsWithChars] at h
      by_cases hab : a = b
      · rw [if_pos hab] at h
        obtain ⟨t, ht⟩ := ih bs h
        exact ⟨t, by rw [ht, hab]; rfl⟩
      · rw [if_neg hab] at h
        cases h

/-- The `Instr.label` payloads in `out` that begin with `pfx`. -/
def labelStrs (pfx : List Char) (out : List Instr) : List String :=
  out.filterMap (fun i =>
    match i with
    | Instr.label s => if startsWithChars pfx s.data then some s else none
    | _ => none)

/-- The numeric suffixes of those labels. -/
def labelNums (pfx : List Char) (out : List Instr) : List Nat :=
  (labelStrs pfx out).map (fun s => parseDecimal (s.data.drop pfx.length))

def whileStartP : List Char := "WHILE_START".data
def whileEndP : List Char := "WHILE_END".data
def ifStartP : List Char := "IF_START".data
def elseP : List Char := "ELSE".data
def ifEndP : List Char := "IF_END".data

theorem labelStrs_append (pfx : List Char) (o1 o2 : List Instr) :
    labelStrs pfx (o1 ++ o2) = labelStrs pfx o1 ++ labelStrs pfx o2 := by
  simp [labelStrs, List.filterMap_append]

theorem labelNums_append (pfx : List Char) (o1 o2 : List Instr) :
    labelNums pfx (o1 ++ o2) = labelNums pfx o1 ++ labelNums pfx o2 := by
  simp [labelNums, labelStrs_append]

theorem mem_labelStrs_startsWith (pfx : List Char) (out : List Instr)
    (s : String) (h : s ∈ labelStrs pfx out) :
    startsWithChars pfx s.data = true := by
  rw [labelStrs, List.mem_filterMap] at h
  obtain ⟨i, _, hi⟩ := h
  match i with
  | Instr.label s' =>
    dsimp only at hi
    by_cases hc : startsWithChars pfx s'.data = true
    · rw [if_pos hc] at hi
      cases hi
      exact hc
    · rw [if_neg hc] at hi
      cases hi
  | Instr.push a b => cases hi
  | Instr.pop a b => cases hi
  | Instr.arith a => cases hi
  | Instr.goto a => cases hi
  | Instr.ifGoto a => cases hi
  | Instr.call a b => cases hi
  | Instr.func a b => cases hi
  | Instr.ret => cases hi

theorem labelNums_label_none (pfx : List Char) (s : String)
    (h : startsWithChars pfx s.data = false) :
    labelNums pfx [Instr.label s] = [] := by
  simp [labelNums, labelStrs, h]

theorem labelNums_label_some (pfx : List Char) (s : String) (n : Nat)
    (h1 : startsWithChars pfx s.data = true)
    (h2 : parseDecimal (s.data.drop pfx.length) = n) :
    labelNums pfx [Instr.label s] = [n] := by
  simp [labelNums, labelStrs, h1, h2]

theorem decode_ws (n : Nat) :
    labelNums whileStartP [Instr.label ("WHILE_START" ++ natStr n)] = [n] ∧
    labelNums whileEndP [Instr.label ("WHILE_START" ++ natStr n)] = [] ∧
    labelNums ifStartP [Instr.label ("WHILE_START" ++ natStr n)] = [] ∧
    labelNums elseP [Instr.label ("WHILE_START" ++ natStr n)] = [] ∧
    labelNums ifEndP [Instr.label ("WHILE_START" ++ natStr n)] = [] :=
  ⟨labelNums_label_some _ _ n rfl (parseDecimal_natStr n),
   labelNums_label_none _ _ rfl, labelNums_label_none _ _ rfl,
   labelNums_label_none _ _ rfl, labelNums_label_none _ _ rfl⟩

theorem decode_we (n : Nat) :
    labelNums whileStartP [Instr.label ("WHILE_END" ++ natStr n)] = [] ∧
    labelNums whileEndP [Instr.label ("WHILE_END" ++ natStr n)] = [n] ∧
    labelNums ifStartP [Instr.label ("WHILE_END" ++ natStr n)] = [] ∧
    labelNums elseP [Instr.label ("WHILE_END" ++ natStr n)] = [] ∧
    labelNums ifEndP [Instr.label ("WHILE_END" ++ natStr n)] = [] :=
  ⟨labelNums_label_none _ _ rfl,
   labelNums_label_some _ _ n rfl (parseDecimal_natStr n),
   labelNums_label_none _ _ rfl, labelNums_label_none _ _ rfl,
   labelNums_label_none _ _ rfl⟩

theorem decode_is (n : Nat) :
    labelNums whileStartP [Instr.label ("IF_START" ++ natStr n)] = [] ∧
    labelNums whileEndP [Instr.label ("IF_START" ++ natStr n)] = [] ∧
    labelNums ifStartP [Instr.label ("IF_START" ++ natStr n)] = [n] ∧
    labelNums elseP [Instr.label ("IF_START" ++ natStr n)] = [] ∧
    labelNums ifEndP [Instr.label ("IF_START" ++ natStr n)] = [] :=
  ⟨labelNums_label_none _ _ rfl, labelNums_label_none _ _ rfl,
   labelNums_label_some _ _ n rfl (parseDecimal_natStr n),
   labelNums_label_none _ _ rfl, labelNums_label_none _ _ rfl⟩

theorem decode_el (n : Nat) :
    labelNums whileStartP [Instr.label ("ELSE" ++ natStr n)] = [] ∧
    labelNums whileEndP [Instr.label ("ELSE" ++ natStr n)] = [] ∧
    labelNums ifStartP [Instr.label ("ELSE" ++ natStr n)] = [] ∧
    labelNums elseP [Instr.label ("ELSE" ++ natStr n)] = [n] ∧
    labelNums ifEndP [Instr.label ("ELSE" ++ natStr n)] = [] :=
  ⟨labelNums_label_none _ _ rfl, labelNums_label_none _ _ rfl,
   labelNums_label_none _ _ rfl,
   labelNums_label_some _ _ n rfl (parseDecimal_natStr n),
   labelNums_label_none _ _ rfl⟩

theorem decode_ie (n : Nat) :
    labelNums whileStartP [Instr.label ("IF_END" ++ natStr n)] = [] ∧
    labelNums whileEndP [Instr.label ("IF_END" ++ natStr n)] = [] ∧
    labelNums ifStartP [Instr.label ("IF_END" ++ natStr n)] = [] ∧
    labelNums elseP [Instr.label ("IF_END" ++ natStr n)] = [] ∧
    labelNums ifEndP [Instr.label ("IF_END" ++ natStr n)] = [n] :=
  ⟨labelNums_label_none _ _ rfl, labelNums_label_none _ _ rfl,
   labelNums_label_none _ _ rfl, labelNums_label_none _ _ rfl,
   labelNums_label_some _ _ n rfl (parseDecimal_natStr n)⟩

/-- `true` for every instruction except a label placement. -/
def noLabel : Instr → Bool := fun i =>
  match i with
  | Instr.label _ => false
  | _ => true

theorem labelStrs_of_noLabel : ∀ (out : List Instr),
    out.all noLabel = true → ∀ pfx, labelStrs pfx out = [] := by
  intro out
  induction out with
  | nil => intro _ pfx; rfl
  | cons i rest ih =>
    intro h pfx
    rw [List.all_cons, Bool.and_eq_true] at h
    have hrest := ih h.2 pfx
    match i, h.1 with
    | Instr.push a b, _ => simpa [labelStrs] using hrest
    | Instr.pop a b, _ => simpa [labelStrs] using hrest
    | Instr.arith a, _ => simpa [labelStrs] using hrest
    | Instr.goto a, _ => simpa [labelStrs] using hrest
    | Instr.ifGoto a, _ => simpa [labelStrs] using hrest
    | Instr.call a b, _ => simpa [labelStrs] using hrest
    | Instr.func a b, _ => simpa [labelStrs] using hrest
    | Instr.ret, _ => simpa [labelStrs] using hrest

theorem labelNums_of_noLabel (out : List Instr)
    (h : out.all noLabel = true) (pfx : List Char) :
    labelNums pfx out = [] := by
  rw [labelNums, labelStrs_of_noLabel out h pfx]
  rfl

/-- Nodup together with lower/upper bounds — the invariant carried per
label family. -/
def boundedNodup (l : List Nat) (a b : Nat) : Prop :=
  l.Nodup ∧ ∀ x ∈ l, a ≤ x ∧ x < b

theorem boundedNodup_nil (a b : Nat) : boundedNodup [] a b :=
  ⟨List.nodup_nil, fun x hx => absurd hx (List.not_mem_nil x)⟩

theorem boundedNodup_mono (l : List Nat) (a b a' b' : Nat)
    (h : boundedNodup l a b) (ha : a' ≤ a) (hb : b ≤ b') :
    boundedNodup l a' b' :=
  ⟨h.1, fun x hx => ⟨Nat.le_trans ha (h.2 x hx).1,
    Nat.lt_of_lt_of_le (h.2 x hx).2 hb⟩⟩

theorem boundedNodup_append (l1 l2 : List Nat) (a b c : Nat)
    (h1 : boundedNodup l1 a b) (h2 : boundedNodup l2 b c)
    (hab : a ≤ b) (hbc : b ≤ c) : boundedNodup (l1 ++ l2) a c := by
  refine ⟨List.Nodup.append h1.1 h2.1 ?_, ?_⟩
  · intro x hx1 hx2
    have hb1 := (h1.2 x hx1).2
    have hb2 := (h2.2 x hx2).1
    omega
  · intro x hx
    rcases List.mem_append.mp hx with h | h
    · exact ⟨(h1.2 x h).1, by have := (h1.2 x h).2; omega⟩
    · exact ⟨by have := (h2.2 x h).1; omega, (h2.2 x h).2⟩

theorem all_noLabel_append (l1 l2 : List Instr)
    (h1 : l1.all noLabel = true) (h2 : l2.all noLabel = true) :
    (l1 ++ l2).all noLabel = true := by
  simp [List.all_append, h1, h2]

theorem write_pop_or_push_noLabel (st : SymbolTable) (name : String)
    (mk : String → Nat → Instr) (hmk : ∀ s i, noLabel (mk s i) = true) :
    (write_pop_or_push st name mk).all noLabel = true := by
  simp only [write_pop_or_push]
  split_ifs with hc
  · rcases hk : st.kind_of name with _ | k
    · simp
    · rcases hv : varDict1 k with _ | seg
      · simp [hv]
      · simp [hv, hmk]
  · rcases hk : st.kind_of name with _ | k
    · simp
    · rcases hv : varDict2 k with _ | seg
      · simp [hv]
      · simp [hv, hmk]

theorem write_push_noLabel (st : SymbolTable) (name : String) :
    (write_push st name).all noLabel = true :=
  write_pop_or_push_noLabel st name Instr.push (fun _ _ => rfl)

theorem write_pop_noLabel (st : SymbolTable) (name : String) :
    (write_pop st name).all noLabel = true :=
  write_pop_or_push_noLabel st name Instr.pop (fun _ _ => rfl)

theorem wisk_noLabel (toks : List Token) (r : List Instr × List Token)
    (h : write_integer_string_keyword_constant toks = some r) :
    r.1.all noLabel = true := by
  rw [write_integer_string_keyword_constant] at h
  split_ifs at h with h1 h2 h3
  · simp only [advance, Option.bind_eq_bind, Option.bind_eq_some] at h
    obtain ⟨a, _, h⟩ := h
    simp only [Option.pure_def, Option.some_inj] at h
    rw [← h]
    rfl
  · simp only [advance, Option.bind_eq_bind, Option.bind_eq_some] at h
    obtain ⟨a, _, h⟩ := h
    simp only [Option.pure_def, Option.some_inj] at h
    rw [← h]
    simp only [List.all_eq_true]
    intro i hi
    simp only [List.append_assoc, List.mem_append, List.mem_cons,
      List.mem_flatMap] at hi
    rcases hi with hi | hi
    · rcases hi with hi | hi
      · rw [hi]; rfl
      · simp at hi
        rw [hi]; rfl
    · rcases hi with ⟨c, _, hc⟩
      rcases hc with hc | hc
      · rw [hc]; rfl
      · simp at hc
        rw [hc]; rfl
  · simp only [advance, Option.bind_eq_bind, Option.bind_eq_some] at h
    obtain ⟨a, _, h⟩ := h
    split_ifs at h with k1 k2 <;>
      (simp only [Option.pure_def, Option.some_inj] at h; rw [← h]; rfl)
  · simp only [Option.pure_def, Option.some_inj] at h
    rw [← h]
    rfl

theorem wpsn_noLabel (st : SymbolTable) (name : String) (toks : List Token)
    (r : Nat × List Instr × String × List Token)
    (h : write_precise_subroutine_name st name toks = some r) :
    r.2.1.all noLabel = true := by
  rw [write_precise_subroutine_name] at h
  simp only [advance, Option.bind_eq_bind, Option.bind_eq_some] at h
  obtain ⟨a1, _, a2, _, h⟩ := h
  split_ifs at h with hc <;>
    (simp only [Option.pure_def, Option.some_inj] at h; rw [← h])
  · exact write_push_noLabel st name
  · rfl

/-- The per-fuel conjunction: every expression-layer production emits
only label-free instructions (labels come only from `while`/`if`). -/
def ExprNoLabel (f : Nat) : Prop :=
  (∀ (cn : String) (st : SymbolTable) (toks : List Token)
    (r : List Instr × List Token),
    compile_expression cn st f toks = some r → r.1.all noLabel = true) ∧
  (∀ (cn : String) (st : SymbolTable) (toks : List Token)
    (r : List Instr × List Token),
    expr_loop cn st f toks = some r → r.1.all noLabel = true) ∧
  (∀ (cn : String) (st : SymbolTable) (toks : List Token)
    (r : List Instr × List Token),
    compile_term cn st f toks = some r → r.1.all noLabel = true) ∧
  (∀ (cn : String) (st : SymbolTable) (toks : List Token)
    (r : List Instr × List Token),
    write_identifier_term cn st f toks = some r → r.1.all noLabel = true) ∧
  (∀ (cn : String) (st : SymbolTable) (isArr : Bool) (name : String)
    (toks : List Token) (r : List Instr × List Token),
    write_period_and_array_end cn st f isArr name toks = some r →
      r.1.all noLabel = true) ∧
  (∀ (cn : String) (st : SymbolTable) (name : String) (toks : List Token)
    (r : Bool × List Instr × List Token),
    write_left_square_bracket cn st f name toks = some r →
      r.2.1.all noLabel = true) ∧
  (∀ (cn : String) (st : SymbolTable) (toks : List Token)
    (r : List Instr × Nat × List Token),
    compile_expression_list cn st f toks = some r →
      r.1.all noLabel = true) ∧
  (∀ (cn : String) (st : SymbolTable) (toks : List Token)
    (r : List Instr × Nat × List Token),
    expr_list_loop cn st f toks = some r → r.1.all noLabel = true) ∧
  (∀ (cn : String) (st : SymbolTable) (toks : List Token)
    (r : List Instr × List Token),
    compile_subroutine_call cn st f toks = some r →
      r.1.all noLabel = true)

theorem exprNoLabel : ∀ f, ExprNoLabel f := by
  intro f
  induction f with
  | zero =>
    refine ⟨?_, ?_, ?_, ?_, ?_, ?_, ?_, ?_, ?_⟩ <;>
      (intros cn st a b c; intros <;> simp_all [compile_expression,
        expr_loop, compile_term, write_identifier_term,
        write_period_and_array_end, write_left_square_bracket,
        compile_expression_list, expr_list_loop, compile_subroutine_call])
  | succ f ih =>
    obtain ⟨ihE, ihL, ihT, ihI, ihP, ihB, ihEL, ihLL, ihC⟩ := ih
    refine ⟨?_, ?_, ?_, ?_, ?_, ?_, ?_, ?_, ?_⟩
    · intro cn st toks r h
      rw [compile_expression] at h
      simp only [Option.bind_eq_bind, Option.bind_eq_some] at h
      obtain ⟨r1, h1, r2, h2, h⟩ := h
      simp only [Option.pure_def, Option.some_inj] at h
      rw [← h]
      exact all_noLabel_append _ _ (ihT cn st toks r1 h1)
        (ihL cn st r1.2 r2 h2)
    · intro cn st toks r h
      rw [expr_loop] at h
      split_ifs at h with hc
      · simp only [Option.bind_eq_bind, Option.bind_eq_some] at h
        obtain ⟨a, _, r1, h1, r2, h2, h⟩ := h
        simp only [Option.pure_def, Option.some_inj] at h
        rw [← h]
        refine all_noLabel_append _ _ (all_noLabel_append _ _
          (ihT cn st a.2 r1 h1) ?_) (ihL cn st r1.2 r2 h2)
        rcases hcall : callBinaryOpDict a.1 with _ | nm
        · rcases har : arithBinaryOpDict a.1 with _ | ar <;>
            simp [hcall, har, noLabel]
        · simp [hcall, noLabel]
      · simp only [Option.pure_def, Option.some_inj] at h
        rw [← h]
        rfl
    · intro cn st toks r h
      rw [compile_term] at h
      split_ifs at h with h1 h2 h3 h4
      · exact wisk_noLabel toks r h
      · exact ihI cn st toks r h
      · simp only [Option.bind_eq_bind, Option.bind_eq_some] at h
        obtain ⟨a, _, r1, h1, h⟩ := h
        simp only [Option.pure_def, Option.some_inj] at h
        rw [← h]
        exact all_noLabel_append _ _ (ihT cn st a.2 r1 h1) rfl
      · simp only [Option.bind_eq_bind, Option.bind_eq_some] at h
        obtain ⟨a, _, r1, h1, a2, _, h⟩ := h
        simp only [Option.pure_def, Option.some_inj] at h
        rw [← h]
        exact ihE cn st a.2 r1 h1
      · simp only [Option.pure_def, Option.some_inj] at h
        rw [← h]
        rfl
    · intro cn st toks r h
      rw [write_identifier_term] at h
      simp only [Option.bind_eq_bind, Option.bind_eq_some] at h
      obtain ⟨a, ha, rb, hb, h⟩ := h
      split_ifs at h with hc
      · simp only [Option.bind_eq_bind, Option.bind_eq_some] at h
        obtain ⟨a2, _, re, he, a3, _, h⟩ := h
        simp only [Option.pure_def, Option.some_inj] at h
        rw [← h]
        exact all_noLabel_append _ _ (all_noLabel_append _ _
          (all_noLabel_append _ _ (ihB cn st a.1 a.2 rb hb) rfl)
          (ihEL cn st a2.2 re he)) rfl
      · simp only [Option.bind_eq_bind, Option.bind_eq_some] at h
        obtain ⟨rp, hp, h⟩ := h
        simp only [Option.pure_def, Option.some_inj] at h
        rw [← h]
        exact all_noLabel_append _ _ (ihB cn st a.1 a.2 rb hb)
          (ihP cn st rb.1 a.1 rb.2.2 rp hp)
    · intro cn st isArr name toks r h
      rw [write_period_and_array_end] at h
      split_ifs at h with hc hc2
      · simp only [Option.bind_eq_bind, Option.bind_eq_some] at h
        obtain ⟨rn, hn, a1, _, re, he, a2, _, h⟩ := h
        simp only [Option.pure_def, Option.some_inj] at h
        rw [← h]
        exact all_noLabel_append _ _ (all_noLabel_append _ _
          (wpsn_noLabel st name toks rn hn) (ihEL cn st a1.2 re he)) rfl
      · simp only [Option.pure_def, Option.some_inj] at h
        rw [← h]
        rfl
      · simp only [Option.pure_def, Option.some_inj] at h
        rw [← h]
        exact write_push_noLabel st name
    · intro cn st name toks r h
      rw [write_left_square_bracket] at h
      split_ifs at h with hc
      · simp only [Option.bind_eq_bind, Option.bind_eq_some] at h
        obtain ⟨a1, _, re, he, a2, _, h⟩ := h
        simp only [Option.pure_def, Option.some_inj] at h
        rw [← h]
        exact all_noLabel_append _ _ (all_noLabel_append _ _
          (ihE cn st a1.2 re he) (write_push_noLabel st name)) rfl
      · simp only [Option.pure_def, Option.some_inj] at h
        rw [← h]
        rfl
    · intro cn st toks r h
      rw [compile_expression_list] at h
      simp only [Option.bind_eq_bind, Option.bind_eq_some] at h
      obtain ⟨r1, h1, r2, h2, h⟩ := h
      simp only [Option.pure_def, Option.some_inj] at h
      rw [← h]
      refine all_noLabel_append _ _ ?_ (ihLL cn st r1.2.2 r2 h2)
      split_ifs at h1 with hs
      · simp only [Option.bind_eq_bind, Option.bind_eq_some] at h1
        obtain ⟨re, he, h1⟩ := h1
        simp only [Option.pure_def, Option.some_inj] at h1
        rw [← h1]
        exact ihE cn st toks re he
      · simp only [Option.pure_def, Option.some_inj] at h1
        rw [← h1]
        rfl
    · intro cn st toks r h
      rw [expr_list_loop] at h
      split_ifs at h with hc
      · simp only [Option.bind_eq_bind, Option.bind_eq_some] at h
        obtain ⟨a, _, r1, h1, r2, h2, h⟩ := h
        simp only [Option.pure_def, Option.some_inj] at h
        rw [← h]
        exact all_noLabel_append _ _ (ihE cn st a.2 r1 h1)
          (ihLL cn st r1.2 r2 h2)
      · simp only [Option.pure_def, Option.some_inj] at h
        rw [← h]
        rfl
    · intro cn st toks r h
      rw [compile_subroutine_call] at h
      simp only [Option.bind_eq_bind, Option.bind_eq_some] at h
      obtain ⟨a, ha, rn, hn, a1, _, re, he, a2, _, h⟩ := h
      simp only [Option.pure_def, Option.some_inj] at h
      rw [← h]
      refine all_noLabel_append _ _ (all_noLabel_append _ _ ?_
        (ihEL cn st a1.2 re he)) rfl
      split_ifs at hn with hc
      · exact wpsn_noLabel st a.1 a.2 rn hn
      · simp only [Option.pure_def, Option.some_inj] at hn
        rw [← hn]
        rfl

theorem return_loop_noLabel : ∀ (f : Nat) (cn : String)
    (st : SymbolTable) (toks : List Token)
    (r : List Instr × Bool × List Token),
    return_loop cn st f toks = some r → r.1.all noLabel = true := by
  intro f
  induction f with
  | zero => intro cn st toks r h; cases h
  | succ f ih =>
    intro cn st toks r h
    obtain ⟨hE, _, _, _, _, _, _, _, _⟩ := exprNoLabel f
    rw [return_loop] at h
    split_ifs at h with hc
    · simp only [Option.bind_eq_bind, Option.bind_eq_some] at h
      obtain ⟨r1, h1, r2, h2, h⟩ := h
      simp only [Option.pure_def, Option.some_inj] at h
      rw [← h]
      exact all_noLabel_append _ _ (hE cn st toks r1 h1)
        (ih cn st r1.2 r2 h2)
    · simp only [Option.pure_def, Option.some_inj] at h
      rw [← h]
      rfl

theorem compile_do_inv (cn : String) (f : Nat) (st : SymbolTable)
    (toks : List Token) (r : List Instr × SymbolTable × List Token)
    (h : compile_do cn f st toks = some r) :
    r.1.all noLabel = true ∧ r.2.1 = st := by
  obtain ⟨_, _, _, _, _, _, _, _, hC⟩ := exprNoLabel f
  rw [compile_do] at h
  simp only [Option.bind_eq_bind, Option.bind_eq_some] at h
  obtain ⟨a1, _, rc, hc, a2, _, h⟩ := h
  simp only [Option.pure_def, Option.some_inj] at h
  rw [← h]
  exact ⟨all_noLabel_append _ _ (hC cn st a1.2 rc hc) rfl, rfl⟩

theorem compile_let_inv (cn : String) (f : Nat) (st : SymbolTable)
    (toks : List Token) (r : List Instr × SymbolTable × List Token)
    (h : compile_let cn f st toks = some r) :
    r.1.all noLabel = true ∧ r.2.1 = st := by
  obtain ⟨hE, _, _, _, _, hB, _, _, _⟩ := exprNoLabel f
  rw [compile_let] at h
  simp only [Option.bind_eq_bind, Option.bind_eq_some] at h
  obtain ⟨a1, _, a2, _, rb, hb, a3, _, re, he, a4, _, h⟩ := h
  simp only [Option.pure_def, Option.some_inj] at h
  rw [← h]
  refine ⟨all_noLabel_append _ _ (all_noLabel_append _ _
    (hB cn st a2.1 a2.2 rb hb) (hE cn st a3.2 re he)) ?_, rfl⟩
  split_ifs with hArr
  · rfl
  · exact write_pop_noLabel st a2.1

theorem compile_return_inv (cn : String) (f : Nat) (st : SymbolTable)
    (toks : List Token) (r : List Instr × SymbolTable × List Token)
    (h : compile_return cn f st toks = some r) :
    r.1.all noLabel = true ∧ r.2.1 = st := by
  rw [compile_return] at h
  simp only [Option.bind_eq_bind, Option.bind_eq_some] at h
  obtain ⟨a1, _, rl, hl, a2, _, h⟩ := h
  simp only [Option.pure_def, Option.some_inj] at h
  rw [← h]
  refine ⟨all_noLabel_append _ _ (all_noLabel_append _ _
    (return_loop_noLabel f cn st a1.2 rl hl) ?_) rfl, rfl⟩
  split_ifs with hAny
  · rfl
  · rfl

/-- The label-uniqueness invariant carried through statement
compilation: counters only grow, and every label family's numbers are
distinct and lie in the window the counters swept. -/
def StmtInv (st st' : SymbolTable) (out : List Instr) : Prop :=
  st.whileCounter ≤ st'.whileCounter ∧ st.ifCounter ≤ st'.ifCounter ∧
  boundedNodup (labelNums whileStartP out) st.whileCounter
    st'.whileCounter ∧
  boundedNodup (labelNums whileEndP out) st.whileCounter
    st'.whileCounter ∧
  boundedNodup (labelNums ifStartP out) st.ifCounter st'.ifCounter ∧
  boundedNodup (labelNums elseP out) st.ifCounter st'.ifCounter ∧
  boundedNodup (labelNums ifEndP out) st.ifCounter st'.ifCounter

/-- The variant for `__write_if_else`, whose `ELSE`/`IF_END` labels
reuse the already-consumed counter value `ic`. -/
def IfElseInv (ic : Nat) (st st' : SymbolTable) (out : List Instr) :
    Prop :=
  st.whileCounter ≤ st'.whileCounter ∧ st.ifCounter ≤ st'.ifCounter ∧
  boundedNodup (labelNums whileStartP out) st.whileCounter
    st'.whileCounter ∧
  boundedNodup (labelNums whileEndP out) st.whileCounter
    st'.whileCounter ∧
  boundedNodup (labelNums ifStartP out) st.ifCounter st'.ifCounter ∧
  ((labelNums elseP out).Nodup ∧ ∀ x ∈ labelNums elseP out,
    x = ic ∨ (st.ifCounter ≤ x ∧ x < st'.ifCounter)) ∧
  ((labelNums ifEndP out).Nodup ∧ ∀ x ∈ labelNums ifEndP out,
    x = ic ∨ (st.ifCounter ≤ x ∧ x < st'.ifCounter))

theorem StmtInv_noLabel (st : SymbolTable) (out : List Instr)
    (h : out.all noLabel = true) : StmtInv st st out := by
  refine ⟨Nat.le_refl _, Nat.le_refl _, ?_, ?_, ?_, ?_, ?_⟩ <;>
    (rw [labelNums_of_noLabel out h]; exact boundedNodup_nil _ _)

theorem StmtInv_append (st1 st2 st3 : SymbolTable) (o1 o2 : List Instr)
    (h1 : StmtInv st1 st2 o1) (h2 : StmtInv st2 st3 o2) :
    StmtInv st1 st3 (o1 ++ o2) := by
  obtain ⟨w1, i1, a1, b1, c1, d1, e1⟩ := h1
  obtain ⟨w2, i2, a2, b2, c2, d2, e2⟩ := h2
  refine ⟨Nat.le_trans w1 w2, Nat.le_trans i1 i2, ?_, ?_, ?_, ?_, ?_⟩ <;>
    rw [labelNums_append]
  · exact boundedNodup_append _ _ _ _ _ a1 a2 w1 w2
  · exact boundedNodup_append _ _ _ _ _ b1 b2 w1 w2
  · exact boundedNodup_append _ _ _ _ _ c1 c2 i1 i2
  · exact boundedNodup_append _ _ _ _ _ d1 d2 i1 i2
  · exact boundedNodup_append _ _ _ _ _ e1 e2 i1 i2

theorem labelNums_nil (P : List Char) : labelNums P [] = [] := rfl

theorem labelNums_cons_nonlabel (P : List Char) (i : Instr)
    (rest : List Instr) (h : noLabel i = true) :
    labelNums P (i :: rest) = labelNums P rest := by
  rw [show i :: rest = [i] ++ rest from rfl, labelNums_append,
    labelNums_of_noLabel [i] (by simp [h])]
  rfl

theorem labelNums_cons_label (P : List Char) (s : String) (i2 : Instr)
    (rest : List Instr) :
    labelNums P (Instr.label s :: i2 :: rest) =
      labelNums P [Instr.label s] ++ labelNums P (i2 :: rest) := by
  rw [show Instr.label s :: i2 :: rest = [Instr.label s] ++ (i2 :: rest)
    from rfl, labelNums_append]

theorem boundedNodup_cons_front (n : Nat) (l : List Nat) (a b : Nat)
    (h : boundedNodup l (n + 1) b) (han : a ≤ n) (hnb : n < b) :
    boundedNodup (n :: l) a b := by
  refine ⟨List.nodup_cons.mpr ⟨?_, h.1⟩, ?_⟩
  · intro hmem
    have := (h.2 n hmem).1
    omega
  · intro x hx
    rcases List.mem_cons.mp hx with hx | hx
    · omega
    · have := h.2 x hx
      omega

theorem boundedNodup_snoc_back (n : Nat) (l : List Nat) (a b : Nat)
    (h : boundedNodup l (n + 1) b) (han : a ≤ n) (hnb : n < b) :
    boundedNodup (l ++ [n]) a b := by
  refine ⟨List.Nodup.append h.1 (List.nodup_singleton n) ?_, ?_⟩
  · intro x hx1 hx2
    have := (h.2 x hx1).1
    simp at hx2
    omega
  · intro x hx
    rcases List.mem_append.mp hx with hx | hx
    · have := h.2 x hx
      omega
    · simp at hx
      omega

theorem boundedNodup_if_combine (l1 l2 : List Nat) (n b c : Nat)
    (h1 : boundedNodup l1 (n + 1) b)
    (h2 : l2.Nodup ∧ ∀ x ∈ l2, x = n ∨ (b ≤ x ∧ x < c))
    (hb : n + 1 ≤ b) (hc : b ≤ c) :
    boundedNodup (l1 ++ l2) n c := by
  refine ⟨List.Nodup.append h1.1 h2.1 ?_, ?_⟩
  · intro x hx1 hx2
    have hb1 := h1.2 x hx1
    rcases h2.2 x hx2 with h | h <;> omega
  · intro x hx
    rcases List.mem_append.mp hx with hx | hx
    · have := h1.2 x hx
      omega
    · rcases h2.2 x hx with h | h <;> omega

theorem stmtLabelInv : ∀ f : Nat,
    (∀ (cn : String) (st : SymbolTable) (toks : List Token)
      (r : List Instr × SymbolTable × List Token),
      compile_statements cn f st toks = some r → StmtInv st r.2.1 r.1) ∧
    (∀ (cn : String) (st : SymbolTable) (toks : List Token)
      (r : List Instr × SymbolTable × List Token),
      compile_while cn f st toks = some r → StmtInv st r.2.1 r.1) ∧
    (∀ (cn : String) (st : SymbolTable) (toks : List Token)
      (r : List Instr × SymbolTable × List Token),
      compile_if cn f st toks = some r → StmtInv st r.2.1 r.1) ∧
    (∀ (cn : String) (ic : Nat) (st : SymbolTable) (toks : List Token)
      (r : List Instr × SymbolTable × List Token), ic < st.ifCounter →
      write_if_else cn f ic ("ELSE" ++ natStr ic) st toks = some r →
      IfElseInv ic st r.2.1 r.1) := by
  intro f
  induction f with
  | zero =>
    refine ⟨?_, ?_, ?_, ?_⟩
    · intro cn st toks r h
      rw [compile_statements.eq_def] at h
      simp at h
    · intro cn st toks r h
      rw [compile_while.eq_def] at h
      simp at h
    · intro cn st toks r h
      rw [compile_if.eq_def] at h
      simp at h
    · intro cn ic st toks r _ h
      rw [write_if_else.eq_def] at h
      simp at h
  | succ f ih =>
    obtain ⟨ihS, ihW, ihIf, ihIE⟩ := ih
    obtain ⟨hE, _, _, _, _, _, _, _, _⟩ := exprNoLabel f
    refine ⟨?_, ?_, ?_, ?_⟩
    · -- compile_statements
      intro cn st toks r h
      rw [compile_statements.eq_def] at h
      dsimp only at h
      split_ifs at h with hc
      · simp only [Option.bind_eq_bind, Option.bind_eq_some] at h
        obtain ⟨r1, h1, r2, h2, h⟩ := h
        simp only [Option.pure_def, Option.some_inj] at h
        rw [← h]
        have hrec := ihS cn r1.2.1 r1.2.2 r2 h2
        have hfirst : StmtInv st r1.2.1 r1.1 := by
          rcases toks with _ | ⟨t, ts⟩
          · cases h1
          · dsimp only at h1
            split_ifs at h1 with k1 k2 k3 k4 k5
            · obtain ⟨hnl, hst⟩ := compile_do_inv cn f st (t :: ts) r1 h1
              rw [hst]
              exact StmtInv_noLabel st r1.1 hnl
            · obtain ⟨hnl, hst⟩ := compile_let_inv cn f st (t :: ts) r1 h1
              rw [hst]
              exact StmtInv_noLabel st r1.1 hnl
            · exact ihW cn st (t :: ts) r1 h1
            · obtain ⟨hnl, hst⟩ :=
                compile_return_inv cn f st (t :: ts) r1 h1
              rw [hst]
              exact StmtInv_noLabel st r1.1 hnl
            · exact ihIf cn st (t :: ts) r1 h1
        exact StmtInv_append _ _ _ _ _ hfirst hrec
      · simp only [Option.pure_def, Option.some_inj] at h
        rw [← h]
        exact StmtInv_noLabel st [] rfl
    · -- compile_while
      intro cn st toks r h
      rw [compile_while] at h
      simp only [Option.bind_eq_bind, Option.bind_eq_some] at h
      obtain ⟨a1, _, a2, _, re, hre, a3, _, a4, _, rs, hrs, a5, _, h⟩ := h
      simp only [Option.pure_def, Option.some_inj] at h
      obtain ⟨out, st', toks'⟩ := r
      simp only [Prod.mk.injEq] at h
      obtain ⟨hout, hst, htk⟩ := h
      subst hout
      subst hst
      subst htk
      dsimp only
      have hcnd := hE cn st.increment_while_counter a2.2 re hre
      have hrec := ihS cn st.increment_while_counter a4.2 rs hrs
      obtain ⟨hw, hi, hWS, hWE, hIS, hEL, hIE⟩ := hrec
      simp [SymbolTable.increment_while_counter] at hw hi hWS hWE hIS hEL hIE
      have hnums : ∀ P : List Char,
          labelNums P ([Instr.label ("WHILE_START" ++
            natStr st.whileCounter)] ++ re.1 ++
            [Instr.arith "not",
              Instr.ifGoto ("WHILE_END" ++ natStr st.whileCounter)] ++
            rs.1 ++
            [Instr.goto ("WHILE_START" ++ natStr st.whileCounter),
              Instr.label ("WHILE_END" ++ natStr st.whileCounter)]) =
          labelNums P [Instr.label ("WHILE_START" ++
            natStr st.whileCounter)] ++ labelNums P rs.1 ++
          labelNums P [Instr.label ("WHILE_END" ++
            natStr st.whileCounter)] := by
        intro P
        simp only [labelNums_append]
        rw [labelNums_of_noLabel re.1 hcnd P,
          labelNums_of_noLabel [Instr.arith "not",
            Instr.ifGoto ("WHILE_END" ++ natStr st.whileCounter)] rfl P,
          labelNums_cons_nonlabel P
            (Instr.goto ("WHILE_START" ++ natStr st.whileCounter))
            [Instr.label ("WHILE_END" ++ natStr st.whileCounter)] rfl]
        simp
      refine ⟨by omega, by omega, ?_, ?_, ?_, ?_, ?_⟩
      · rw [hnums whileStartP, (decode_ws st.whileCounter).1,
          (decode_we st.whileCounter).1]
        simp only [List.append_nil]
        exact boundedNodup_cons_front _ _ _ _ hWS (Nat.le_refl _)
          (by omega)
      · rw [hnums whileEndP, (decode_ws st.whileCounter).2.1,
          (decode_we st.whileCounter).2.1]
        simp only [List.nil_append]
        exact boundedNodup_snoc_back _ _ _ _ hWE (Nat.le_refl _)
          (by omega)
      · rw [hnums ifStartP, (decode_ws st.whileCounter).2.2.1,
          (decode_we st.whileCounter).2.2.1]
        simpa using hIS
      · rw [hnums elseP, (decode_ws st.whileCounter).2.2.2.1,
          (decode_we st.whileCounter).2.2.2.1]
        simpa using hEL
      · rw [hnums ifEndP, (decode_ws st.whileCounter).2.2.2.2,
          (decode_we st.whileCounter).2.2.2.2]
        simpa using hIE
    · -- compile_if
      intro cn st toks r h
      rw [compile_if] at h
      simp only [Option.bind_eq_bind, Option.bind_eq_some] at h
      obtain ⟨a1, _, a2, _, re, hre, a3, _, a4, _, rs, hrs, a5, _,
        rf, hrf, h⟩ := h
      simp only [Option.pure_def, Option.some_inj] at h
      obtain ⟨out, st', toks'⟩ := r
      simp only [Prod.mk.injEq] at h
      obtain ⟨hout, hst, htk⟩ := h
      subst hout
      subst hst
      subst htk
      dsimp only
      have hcnd := hE cn st a2.2 re hre
      have hrec := ihS cn st.increment_if_counter a4.2 rs hrs
      obtain ⟨hw, hi, hWS, hWE, hIS, hEL, hIE⟩ := hrec
      simp [SymbolTable.increment_if_counter] at hw hi hWS hWE hIS hEL hIE
      have hic : st.ifCounter < rs.2.1.ifCounter := by omega
      have hfe := ihIE cn st.ifCounter rs.2.1 a5.2 rf hic hrf
      obtain ⟨gw, gi, gWS, gWE, gIS, gEL, gIE⟩ := hfe
      have hnums : ∀ P : List Char,
          labelNums P (re.1 ++
            [Instr.ifGoto ("IF_START" ++ natStr st.ifCounter),
              Instr.goto ("ELSE" ++ natStr st.ifCounter),
              Instr.label ("IF_START" ++ natStr st.ifCounter)] ++
            rs.1 ++ rf.1) =
          labelNums P [Instr.label ("IF_START" ++
            natStr st.ifCounter)] ++ labelNums P rs.1 ++
          labelNums P rf.1 := by
        intro P
        simp only [labelNums_append]
        rw [labelNums_of_noLabel re.1 hcnd P,
          labelNums_cons_nonlabel P
            (Instr.ifGoto ("IF_START" ++ natStr st.ifCounter))
            [Instr.goto ("ELSE" ++ natStr st.ifCounter),
              Instr.label ("IF_START" ++ natStr st.ifCounter)] rfl,
          labelNums_cons_nonlabel P
            (Instr.goto ("ELSE" ++ natStr st.ifCounter))
            [Instr.label ("IF_START" ++ natStr st.ifCounter)] rfl]
        simp
      refine ⟨by omega, by omega, ?_, ?_, ?_, ?_, ?_⟩
      · rw [hnums whileStartP, (decode_is st.ifCounter).1]
        simp only [List.nil_append]
        exact boundedNodup_append _ _ _ _ _ hWS gWS (by omega) (by omega)
      · rw [hnums whileEndP, (decode_is st.ifCounter).2.1]
        simp only [List.nil_append]
        exact boundedNodup_append _ _ _ _ _ hWE gWE (by omega) (by omega)
      · rw [hnums ifStartP, (decode_is st.ifCounter).2.2.1]
        rw [List.append_assoc]
        refine boundedNodup_cons_front _ _ _ _ ?_ (Nat.le_refl _)
          (by omega)
        exact boundedNodup_append (labelNums ifStartP rs.1)
          (labelNums ifStartP rf.1) _ _ _ hIS gIS (by omega) (by omega)
      · rw [hnums elseP, (decode_is st.ifCounter).2.2.2.1]
        simp only [List.nil_append]
        exact boundedNodup_if_combine _ _ _ _ _ hEL gEL (by omega)
          (by omega)
      · rw [hnums ifEndP, (decode_is st.ifCounter).2.2.2.2]
        simp only [List.nil_append]
        exact boundedNodup_if_combine _ _ _ _ _ hIE gIE (by omega)
          (by omega)
    · -- write_if_else
      intro cn ic st toks r hic h
      rw [write_if_else] at h
      split_ifs at h with hc
      · simp only [Option.bind_eq_bind, Option.bind_eq_some] at h
        obtain ⟨a1, _, a2, _, rs, hrs, a3, _, h⟩ := h
        simp only [Option.pure_def, Option.some_inj] at h
        obtain ⟨out, st', toks'⟩ := r
        simp only [Prod.mk.injEq] at h
        obtain ⟨hout, hst, htk⟩ := h
        subst hout
        subst hst
        subst htk
        dsimp only
        have hrec := ihS cn st a2.2 rs hrs
        obtain ⟨hw, hi, hWS, hWE, hIS, hEL, hIE⟩ := hrec
        have hnums : ∀ P : List Char,
            labelNums P ([Instr.goto ("IF_END" ++ natStr ic),
              Instr.label ("ELSE" ++ natStr ic)] ++ rs.1 ++
              [Instr.label ("IF_END" ++ natStr ic)]) =
            labelNums P [Instr.label ("ELSE" ++ natStr ic)] ++
            labelNums P rs.1 ++
            labelNums P [Instr.label ("IF_END" ++ natStr ic)] := by
          intro P
          simp only [labelNums_append]
          rw [labelNums_cons_nonlabel P
            (Instr.goto ("IF_END" ++ natStr ic))
            [Instr.label ("ELSE" ++ natStr ic)] rfl]
        refine ⟨hw, hi, ?_, ?_, ?_, ?_, ?_⟩
        · rw [hnums whileStartP, (decode_el ic).1, (decode_ie ic).1]
          simpa using hWS
        · rw [hnums whileEndP, (decode_el ic).2.1, (decode_ie ic).2.1]
          simpa using hWE
        · rw [hnums ifStartP, (decode_el ic).2.2.1, (decode_ie ic).2.2.1]
          simpa using hIS
        · rw [hnums elseP, (decode_el ic).2.2.2.1, (decode_ie ic).2.2.2.1]
          simp only [List.append_nil]
          constructor
          · refine List.nodup_cons.mpr ⟨?_, hEL.1⟩
            intro hmem
            have := (hEL.2 ic hmem).1
            omega
          · intro x hx
            rcases List.mem_cons.mp hx with hx | hx
            · exact Or.inl hx
            · exact Or.inr (hEL.2 x hx)
        · rw [hnums ifEndP, (decode_el ic).2.2.2.2, (decode_ie ic).2.2.2.2]
          simp only [List.nil_append]
          constructor
          · refine List.Nodup.append hIE.1 (List.nodup_singleton ic) ?_
            intro x hx1 hx2
            have := (hIE.2 x hx1).1
            simp at hx2
            omega
          · intro x hx
            rcases List.mem_append.mp hx with hx | hx
            · exact Or.inr (hIE.2 x hx)
            · simp at hx
              exact Or.inl hx
      · simp only [Option.pure_def, Option.some_inj] at h
        obtain ⟨out, st', toks'⟩ := r
        simp only [Prod.mk.injEq] at h
        obtain ⟨hout, hst, htk⟩ := h
        subst hout
        subst hst
        subst htk
        dsimp only
        refine ⟨Nat.le_refl _, Nat.le_refl _, ?_, ?_, ?_, ?_, ?_⟩
        · rw [(decode_el ic).1]
          exact boundedNodup_nil _ _
        · rw [(decode_el ic).2.1]
          exact boundedNodup_nil _ _
        · rw [(decode_el ic).2.2.1]
          exact boundedNodup_nil _ _
        · rw [(decode_el ic).2.2.2.1]
          refine ⟨List.nodup_singleton ic, ?_⟩
          intro x hx
          simp at hx
          exact Or.inl hx
        · rw [(decode_el ic).2.2.2.2]
          exact ⟨List.nodup_nil, fun x hx => absurd hx
            (List.not_mem_nil x)⟩

theorem write_pointer_update_noLabel (ft : String) (st : SymbolTable) :
    (write_pointer_update ft st).all noLabel = true := by
  rw [write_pointer_update]
  split_ifs <;> rfl

theorem swc_we_ws (t : List Char) :
    startsWithChars whileEndP (whileStartP ++ t) = false := rfl

theorem swc_el_is (t : List Char) :
    startsWithChars elseP (ifStartP ++ t) = false := rfl

theorem swc_ie_is (t : List Char) :
    startsWithChars ifEndP (ifStartP ++ t) = false := rfl

theorem swc_ie_el (t : List Char) :
    startsWithChars ifEndP (elseP ++ t) = false := rfl

theorem labelStrs_disjoint (p q : List Char) (out : List Instr)
    (hpq : ∀ t : List Char, startsWithChars q (p ++ t) = false) :
    List.Disjoint (labelStrs p out) (labelStrs q out) := by
  intro s hs1 hs2
  have h1 := mem_labelStrs_startsWith p out s hs1
  have h2 := mem_labelStrs_startsWith q out s hs2
  obtain ⟨t, ht⟩ := startsWithChars_exists p s.data h1
  rw [ht, hpq t] at h2
  cases h2

theorem labelStrs_nodup_of_labelNums (p : List Char) (out : List Instr)
    (h : (labelNums p out).Nodup) : (labelStrs p out).Nodup := by
  rw [labelNums] at h
  exact List.Nodup.of_map _ h

/-- C7: within one compiled subroutine body, the `while`-derived label
names (`WHILE_START<n>` and `WHILE_END<n>`) are pairwise distinct and
the `if`-derived label names (`IF_START<n>`, `ELSE<n>`, `IF_END<n>`)
are pairwise distinct, whatever the nesting: each statement consumes a
fresh value of the corresponding per-subroutine counter. -/
theorem c7_unique_labels_per_subroutine (cn functionType curName : String)
    (f : Nat) (st : SymbolTable) (toks : List Token) (out : List Instr)
    (st' : SymbolTable) (toks' : List Token)
    (h : compile_subroutine_body cn functionType curName f st toks =
      some (out, st', toks')) :
    (labelStrs whileStartP out ++ labelStrs whileEndP out).Nodup ∧
    (labelStrs ifStartP out ++ labelStrs elseP out ++
      labelStrs ifEndP out).Nodup := by
  rw [compile_subroutine_body] at h
  simp only [Option.bind_eq_bind, Option.bind_eq_some] at h
  obtain ⟨a1, _, rv, _, rs, hrs, a2, _, h⟩ := h
  simp only [Option.pure_def, Option.some_inj, Prod.mk.injEq] at h
  obtain ⟨hout, _, _⟩ := h
  obtain ⟨hSt, _, _, _⟩ := stmtLabelInv f
  obtain ⟨_, _, hWS, hWE, hIS, hEL, hIE⟩ := hSt cn rv.1 rv.2 rs hrs
  have hred : ∀ P : List Char, labelStrs P out = labelStrs P rs.1 := by
    intro P
    rw [← hout]
    simp only [labelStrs_append]
    rw [labelStrs_of_noLabel [Instr.func curName
        (rv.1.subroutine_level_var_count "var")] rfl P,
      labelStrs_of_noLabel (write_pointer_update functionType rv.1)
        (write_pointer_update_noLabel functionType rv.1) P]
    simp
  refine ⟨?_, ?_⟩
  · rw [hred whileStartP, hred whileEndP]
    exact List.Nodup.append (labelStrs_nodup_of_labelNums _ _ hWS.1)
      (labelStrs_nodup_of_labelNums _ _ hWE.1)
      (labelStrs_disjoint _ _ _ swc_we_ws)
  · rw [hred ifStartP, hred elseP, hred ifEndP]
    refine List.Nodup.append
      (List.Nodup.append (labelStrs_nodup_of_labelNums _ _ hIS.1)
        (labelStrs_nodup_of_labelNums _ _ hEL.1)
        (labelStrs_disjoint _ _ _ swc_el_is))
      (labelStrs_nodup_of_labelNums _ _ hIE.1) ?_
    intro s hs hmem
    rcases List.mem_append.mp hs with hs | hs
    · exact labelStrs_disjoint _ _ _ swc_ie_is hs hmem
    · exact labelStrs_disjoint _ _ _ swc_ie_el hs hmem

def c7St : SymbolTable :=
  ((SymbolTable.init.start_subroutine "C.f").set_cur "C.f"
    |>.define "x" "int" "var") |>.define "y" "int" "var"

def c7Toks : List Token :=
  [Token.mk "symbol" "\x7b",
   Token.mk "keyword" "while", Token.mk "symbol" "(",
   Token.mk "identifier" "x", Token.mk "symbol" ")",
   Token.mk "symbol" "\x7b",
   Token.mk "keyword" "let", Token.mk "identifier" "y",
   Token.mk "symbol" "=", Token.mk "integerConstant" "1",
   Token.mk "symbol" ";", Token.mk "symbol" "\x7d",
   Token.mk "keyword" "if", Token.mk "symbol" "(",
   Token.mk "identifier" "x", Token.mk "symbol" ")",
   Token.mk "symbol" "\x7b",
   Token.mk "keyword" "let", Token.mk "identifier" "y",
   Token.mk "symbol" "=", Token.mk "integerConstant" "2",
   Token.mk "symbol" ";", Token.mk "symbol" "\x7d",
   Token.mk "keyword" "else", Token.mk "symbol" "\x7b",
   Token.mk "keyword" "let", Token.mk "identifier" "y",
   Token.mk "symbol" "=", Token.mk "integerConstant" "3",
   Token.mk "symbol" ";", Token.mk "symbol" "\x7d",
   Token.mk "symbol" "\x7d"]

def c7Out : List Instr :=
  [Instr.func "C.f" 2,
   Instr.label "WHILE_START0", Instr.push "local" 0, Instr.arith "not",
   Instr.ifGoto "WHILE_END0", Instr.push "constant" 1,
   Instr.pop "local" 1, Instr.goto "WHILE_START0",
   Instr.label "WHILE_END0",
   Instr.push "local" 0, Instr.ifGoto "IF_START0", Instr.goto "ELSE0",
   Instr.label "IF_START0", Instr.push "constant" 2,
   Instr.pop "local" 1, Instr.goto "IF_END0", Instr.label "ELSE0",
   Instr.push "constant" 3, Instr.pop "local" 1, Instr.label "IF_END0"]

def c7Sta : SymbolTable :=
  (c7St.increment_while_counter.increment_if_counter).set_cur "class"

theorem c7_witness :
    compile_subroutine_body "C" "function" "C.f" 20 c7St c7Toks =
      some (c7Out, c7Sta, []) ∧
    ((labelStrs whileStartP c7Out ++ labelStrs whileEndP c7Out).Nodup ∧
     (labelStrs ifStartP c7Out ++ labelStrs elseP c7Out ++
       labelStrs ifEndP c7Out).Nodup) :=
  ⟨by decide,
   c7_unique_labels_per_subroutine "C" "function" "C.f" 20 c7St c7Toks
     c7Out c7Sta [] (by decide)⟩

/-! ### C4 — entering a subroutine resets the per-subroutine state -/

/-- C4: `enterSubroutine` (`start_subroutine`) always zeroes the
`Argument`, `Local`, `if` and `while` counters and installs an empty
scope for the new subroutine, whatever the previous state was. -/
theorem c4_enter_subroutine_resets (st : SymbolTable) (name : String) :
    (st.start_subroutine name).argCounter = 0 ∧
    (st.start_subroutine name).varCounter = 0 ∧
    (st.start_subroutine name).ifCounter = 0 ∧
    (st.start_subroutine name).whileCounter = 0 ∧
    alookup (st.start_subroutine name).subTables name = some [] := by
  refine ⟨rfl, rfl, rfl, rfl, ?_⟩
  exact alookup_aupsert_self st.subTables name []

/-! ### C6 — subroutine-scope symbols shadow class-scope symbols -/

/-- C6: when a name has an entry in the current (subroutine) scope and
another in the class scope, `kind_of`, `type_of` and `index_of` all
report the subroutine-scope entry. -/
theorem c6_subroutine_scope_shadows (st : SymbolTable) (x : String)
    (e e' : Entry) (_hcur : st.cur ≠ "class")
    (h1 : alookup st.curTable x = some e)
    (_h2 : alookup st.classTable x = some e') :
    st.kind_of x = some e.kind ∧ st.type_of x = some e.type ∧
      st.index_of x = some e.index := by
  unfold SymbolTable.kind_of SymbolTable.type_of SymbolTable.index_of
  rw [h1]
  exact ⟨rfl, rfl, rfl⟩

/-! ### C2 — constructor allocation prologue -/

/-- C2: whenever a constructor body compiles successfully, the
instructions right after the `function <Class>.<name> <nLocals>` frame
declaration and before any statement code are exactly
`push constant n / call Memory.alloc 1 / pop pointer 0`, where `n` is
the number of `field` rows in the class scope. -/
theorem c2_constructor_prologue (cn nm : String) (f : Nat)
    (st : SymbolTable) (toks : List Token) (out : List Instr)
    (st' : SymbolTable) (toks' : List Token)
    (hcur : st.cur ≠ "class")
    (h : compile_subroutine_body cn "constructor" nm f st toks =
      some (out, st', toks')) :
    ∃ nLocals stmtCode, out =
      Instr.func nm nLocals ::
      Instr.push "constant" (st.class_level_var_count "field") ::
      Instr.call "Memory.alloc" 1 :: Instr.pop "pointer" 0 :: stmtCode := by
  rw [compile_subroutine_body] at h
  simp only [Option.bind_eq_bind, Option.bind_eq_some] at h
  obtain ⟨a1, h1, rv, hv, rs, hs, a2, h2, h⟩ := h
  simp only [Option.pure_def, Option.some_inj, Prod.mk.injEq] at h
  have hpre := var_decs_preserve f st a1.2 rv.1 rv.2 hcur (by rw [← hv])
  refine ⟨rv.1.subroutine_level_var_count "var", rs.1, ?_⟩
  rw [← h.1]
  have hcount : rv.1.class_level_var_count "field" =
      st.class_level_var_count "field" := by
    unfold SymbolTable.class_level_var_count
    rw [hpre.1]
  simp [write_pointer_update, hcount]

/-- Witness for C2: a class with two fields, a constructor with an
empty body; the prologue allocates two words. -/
theorem c2_witness :
    compile_subroutine_body "C" "constructor" "C.new" 5
      ((((SymbolTable.init.define "a" "int" "field").define "b" "int"
        "field").start_subroutine "C.new").set_cur "C.new")
      [Token.mk "symbol" "\x7b", Token.mk "symbol" "\x7d"] =
      some ([Instr.func "C.new" 0, Instr.push "constant" 2,
        Instr.call "Memory.alloc" 1, Instr.pop "pointer" 0],
        (((((SymbolTable.init.define "a" "int" "field").define "b" "int"
          "field").start_subroutine "C.new").set_cur "C.new").set_cur
          "class"), []) ∧
    ∃ nLocals stmtCode,
      ([Instr.func "C.new" 0, Instr.push "constant" 2,
        Instr.call "Memory.alloc" 1, Instr.pop "pointer" 0] : List Instr) =
      Instr.func "C.new" nLocals ::
      Instr.push "constant"
        (((((SymbolTable.init.define "a" "int" "field").define "b" "int"
          "field").start_subroutine "C.new").set_cur
          "C.new").class_level_var_count "field") ::
      Instr.call "Memory.alloc" 1 :: Instr.pop "pointer" 0 :: stmtCode := by
  refine ⟨by decide, ?_⟩
  exact c2_constructor_prologue "C" "C.new" 5
    ((((SymbolTable.init.define "a" "int" "field").define "b" "int"
      "field").start_subroutine "C.new").set_cur "C.new")
    [Token.mk "symbol" "\x7b", Token.mk "symbol" "\x7d"]
    [Instr.func "C.new" 0, Instr.push "constant" 2,
      Instr.call "Memory.alloc" 1, Instr.pop "pointer" 0]
    (((((SymbolTable.init.define "a" "int" "field").define "b" "int"
      "field").start_subroutine "C.new").set_cur "C.new").set_cur "class")
    [] (by decide) (by decide)

/-- Witness for C6 at a concrete table: `x` is both a class-scope
field of type `int` and a subroutine-scope local of type `bool`; the
lookups all report the subroutine-scope row. -/
theorem c6_witness :
    ((((SymbolTable.init.define "x" "int" "field").start_subroutine
        "M.f").set_cur "M.f").define "x" "bool" "var").kind_of "x" =
          some "var" ∧
    ((((SymbolTable.init.define "x" "int" "field").start_subroutine
        "M.f").set_cur "M.f").define "x" "bool" "var").type_of "x" =
          some "bool" ∧
    ((((SymbolTable.init.define "x" "int" "field").start_subroutine
        "M.f").set_cur "M.f").define "x" "bool" "var").index_of "x" =
          some 0 :=
  c6_subroutine_scope_shadows _ "x" ⟨"bool", "var", 0⟩ ⟨"int", "field", 0⟩
    (by decide) (by decide) (by decide)

end JackCompiler
